import Mathlib

/-!
Verification of the traceroute / relay-resolution engine of the meshyview
dashboard.  Definitions are shallow embeddings of the TypeScript source:

* src/utils/tracerouteParser.ts     (binary route decoder)
* src/components/TracerouteVisualization.tsx
    (route grouping & sorting, graph building, BFS layered layout)
* src/components/PacketDetail.tsx   (relay disambiguation, distance sort)
* src/utils/nodeLookup.ts           (node directory lookup)

JS numbers that the engine manipulates are unsigned integers below 2^32,
modelled as Nat with explicit wrapping where the source applies bitwise
coercions.  JS Map objects are modelled as insertion-ordered association
lists, JS Set objects as Finset/List, and the stable Array.prototype.sort
as a stable insertion sort (for a consistent comparator the ECMAScript
specification determines the output uniquely as the stable reordering
that is sorted by the comparator, so any stable sort is the exact model).
-/

namespace Meshyview

/-! ## Binary route decoder (src/utils/tracerouteParser.ts) -/

/-- Value of one hexadecimal digit, as accepted by JS parseInt with radix
16; a character that is not a hex digit has no value. -/
def hexDigitVal? (c : Char) : Option Nat :=
  if '0' ≤ c ∧ c ≤ '9' then some (c.toNat - '0'.toNat)
  else if 'a' ≤ c ∧ c ≤ 'f' then some (c.toNat - 'a'.toNat + 10)
  else if 'A' ≤ c ∧ c ≤ 'F' then some (c.toNat - 'A'.toNat + 10)
  else none

/-- JS parseInt(s, 16) applied to the 1- or 2-character slice
payloadHex.substr(i, 2): it parses the longest valid leading digit run.
When the first character is already invalid, parseInt yields NaN; every
later use of the resulting byte in the source coerces it with a bitwise
operator (which maps NaN to 0) or compares it with 0x80 (false for NaN
and for 0 alike), so 0 is an observationally exact model of that NaN. -/
def parseHexByte (c1 : Char) (c2 : Option Char) : Nat :=
  match hexDigitVal? c1, c2 with
  | none, _ => 0
  | some d1, none => d1
  | some d1, some c =>
    match hexDigitVal? c with
    | none => d1
    | some d2 => 16 * d1 + d2

/-- The hex-to-bytes loop of parseTraceroutePayload:
for (i = 0; i < payloadHex.length; i += 2) bytes.push(parseInt(substr(i,2),16)). -/
def hexToBytes : List Char → List Nat
  | [] => []
  | [c] => [parseHexByte c none]
  | c1 :: c2 :: rest => parseHexByte c1 (some c2) :: hexToBytes rest

/-- Wire-type-0 skip: while (i < bytes.length && bytes[i] >= 0x80) i++;
i++ — the trailing increment may step past the end of the array, which
leaves no remaining bytes. -/
def skipVarint : List Nat → List Nat
  | [] => []
  | b :: rest => if b ≥ 0x80 then skipVarint rest else rest

/-- Wire-type-2 length prefix: length = 0; shift = 0; while (i < len)
{ b = bytes[i++]; length |= (b & 0x7f) << shift; if ((b & 0x80) === 0)
break; shift += 7 }.  Bytes produced by hexToBytes are below 256, so
(b & 0x7f) is b % 128 and (b & 0x80) === 0 is b < 128.  (JS coerces the
accumulator to a signed 32-bit integer; for lengths below 2^31 — every
input quantified over below, whose payloads contain no wire-type-2
fields at all — the Nat accumulator agrees with JS.) -/
def readVarint (acc shift : Nat) : List Nat → Nat × List Nat
  | [] => (acc, [])
  | b :: rest =>
    let acc' := acc ||| ((b % 128) <<< shift)
    if b < 128 then (acc', rest) else readVarint acc' (shift + 7) rest

theorem skipVarint_length_le (l : List Nat) : (skipVarint l).length ≤ l.length := by
  induction l with
  | nil => simp [skipVarint]
  | cons b rest ih =>
    simp only [skipVarint]
    split
    · exact Nat.le_succ_of_le ih
    · exact Nat.le_succ _

theorem readVarint_length_le (acc shift : Nat) (l : List Nat) :
    (readVarint acc shift l).2.length ≤ l.length := by
  induction l generalizing acc shift with
  | nil => simp [readVarint]
  | cons b rest ih =>
    simp only [readVarint]
    split
    · exact Nat.le_succ _
    · exact Nat.le_succ_of_le (ih _ _)

/-- The field-scanning loop of parseTraceroutePayload, on the byte array.
Each iteration reads the field header byte, splits it into field number
(upper 5 bits) and wire type (lower 3 bits); field 1 / wire type 5
consumes exactly four little-endian payload bytes as one node id
(`route.push(nodeId >>> 0)`: for bytes below 256 the JS expression
`(b0 | b1 << 8 | b2 << 16 | b3 << 24) >>> 0` equals
(b0 + b1·2^8 + b2·2^16 + b3·2^24) % 2^32, written out here), breaking
out of the loop when fewer than four bytes remain; every other field is
skipped according to its wire type, a header with an unhandled wire type
(3, 4, 6, 7) advancing past the header only. -/
def parseRouteBytes : List Nat → List Nat
  | [] => []
  | h :: rest =>
    let fieldNumber := h >>> 3
    let wireType := h &&& 7
    if fieldNumber = 1 ∧ wireType = 5 then
      match rest with
      | b0 :: b1 :: b2 :: b3 :: rest' =>
        ((b0 + b1 * 256 + b2 * 65536 + b3 * 16777216) % 4294967296) ::
          parseRouteBytes rest'
      | _ => []
    else if wireType = 0 then parseRouteBytes (skipVarint rest)
    else if wireType = 1 then parseRouteBytes (rest.drop 8)
    else if wireType = 2 then
      let r := readVarint 0 0 rest
      parseRouteBytes (r.2.drop r.1)
    else if wireType = 5 then parseRouteBytes (rest.drop 4)
    else parseRouteBytes rest
termination_by l => l.length
decreasing_by
  · simp only [List.length_cons]; omega
  · have := skipVarint_length_le rest; simp only [List.length_cons]; omega
  · have := List.length_drop 8 rest; simp only [List.length_cons]; omega
  · have h1 := readVarint_length_le 0 0 rest
    have h2 := List.length_drop ((readVarint 0 0 rest).1) ((readVarint 0 0 rest).2)
    simp only [List.length_cons]; omega
  · have := List.length_drop 4 rest; simp only [List.length_cons]; omega
  · simp only [List.length_cons]; omega

/-- Result record of parseTraceroutePayload (interface TracerouteData). -/
structure TracerouteData where
  route : List Nat
deriving DecidableEq

/-- parseTraceroutePayload: `!payloadHex || payloadHex.length === 0`
returns null (a null argument falls into the same guard), otherwise the
hex string is decoded to bytes and scanned; the body is exception-free,
so the catch branch (also returning null) is unreachable. -/
def parseTraceroutePayload (payloadHex : String) : Option TracerouteData :=
  if payloadHex.data = [] then none
  else some ⟨parseRouteBytes (hexToBytes payloadHex.data)⟩

/-! ### Claim-side encoders (the quantified inputs of §8 properties 1–2):
one id encoded as protobuf field number 1, wire type 5 — header byte
0x0d followed by the four little-endian bytes of the identifier. -/

/-- Encoding of a single identifier as field 1 / wire type 5. -/
def encodeFixed32Field (id : Nat) : List Nat :=
  [13, id % 256, id / 256 % 256, id / 65536 % 256, id / 16777216 % 256]

/-- Concatenated encodings of a list of identifiers. -/
def encodeRoute (ids : List Nat) : List Nat :=
  (ids.map encodeFixed32Field).flatten

/-- Two lowercase hex characters of one byte. -/
def byteToHex (b : Nat) : List Char :=
  [Nat.digitChar (b / 16), Nat.digitChar (b % 16)]

/-- Hex encoding of a byte sequence. -/
def bytesToHex (bs : List Nat) : String :=
  ⟨(bs.map byteToHex).flatten⟩

theorem hexDigitVal_digitChar {d : Nat} (h : d < 16) :
    hexDigitVal? (Nat.digitChar d) = some d := by
  interval_cases d <;> decide

theorem hexToBytes_bytesToHex (bs : List Nat) (h : ∀ b ∈ bs, b < 256) :
    hexToBytes (bytesToHex bs).data = bs := by
  induction bs with
  | nil => rfl
  | cons b rest ih =>
    have hb : b < 256 := h b (List.mem_cons_self ..)
    have hdiv : b / 16 < 16 := by omega
    have hmod : b % 16 < 16 := by omega
    have hdata : (bytesToHex (b :: rest)).data =
        Nat.digitChar (b / 16) :: Nat.digitChar (b % 16) :: (bytesToHex rest).data := by
      simp [bytesToHex, byteToHex]
    rw [hdata]
    show parseHexByte (Nat.digitChar (b / 16)) (some (Nat.digitChar (b % 16))) ::
        hexToBytes (bytesToHex rest).data = b :: rest
    rw [ih (fun x hx => h x (List.mem_cons_of_mem _ hx))]
    simp only [parseHexByte, hexDigitVal_digitChar hdiv, hexDigitVal_digitChar hmod]
    congr 1
    omega

theorem encodeRoute_bytes_lt (ids : List Nat) :
    ∀ b ∈ encodeRoute ids, b < 256 := by
  intro b hb
  simp only [encodeRoute, List.mem_flatten, List.mem_map] at hb
  obtain ⟨l, ⟨id, _, rfl⟩, hbl⟩ := hb
  simp only [encodeFixed32Field, List.mem_cons, List.not_mem_nil, or_false] at hbl
  rcases hbl with rfl | rfl | rfl | rfl | rfl <;> omega

theorem parseRouteBytes_nil : parseRouteBytes [] = [] := by
  rw [parseRouteBytes]

theorem parseRouteBytes_field1 (b0 b1 b2 b3 : Nat) (r : List Nat) :
    parseRouteBytes (13 :: b0 :: b1 :: b2 :: b3 :: r) =
      ((b0 + b1 * 256 + b2 * 65536 + b3 * 16777216) % 4294967296) ::
        parseRouteBytes r := by
  rw [parseRouteBytes]
  rfl

theorem parseRouteBytes_truncated (t : List Nat) (h : t.length < 4) :
    parseRouteBytes (13 :: t) = [] := by
  match t, h with
  | [], _ =>
    rw [parseRouteBytes]
    · rfl
    · intro _ _ _ _ _ hx; simp at hx
  | [a], _ =>
    rw [parseRouteBytes]
    · rfl
    · intro _ _ _ _ _ hx; simp at hx
  | [a, b], _ =>
    rw [parseRouteBytes]
    · rfl
    · intro _ _ _ _ _ hx; simp at hx
  | [a, b, c], _ =>
    rw [parseRouteBytes]
    · rfl
    · intro _ _ _ _ _ hx; simp at hx

/-- Byte-level truncation behaviour: scanning the first k bytes of an
encoded route yields exactly the identifiers of the ⌊k/5⌋ complete
fields (for any k, including k beyond the full length). -/
theorem parseRouteBytes_take (ids : List Nat) (k : Nat)
    (h : ∀ id ∈ ids, id < 4294967296) :
    parseRouteBytes ((encodeRoute ids).take k) = ids.take (k / 5) := by
  induction ids generalizing k with
  | nil => simp [encodeRoute, parseRouteBytes_nil]
  | cons id rest ih =>
    have hid : id < 4294967296 := h id (List.mem_cons_self ..)
    have hrest : ∀ x ∈ rest, x < 4294967296 :=
      fun x hx => h x (List.mem_cons_of_mem _ hx)
    have henc : encodeRoute (id :: rest) =
        13 :: id % 256 :: id / 256 % 256 :: id / 65536 % 256 ::
          id / 16777216 % 256 :: encodeRoute rest := by
      simp [encodeRoute, encodeFixed32Field]
    rcases Nat.lt_or_ge k 5 with hk | hk
    · rw [Nat.div_eq_of_lt hk, List.take_zero, henc]
      interval_cases k
      · simp only [List.take_zero]; exact parseRouteBytes_nil
      · simp only [List.take_succ_cons, List.take_zero]
        exact parseRouteBytes_truncated [] (by simp)
      · simp only [List.take_succ_cons, List.take_zero]
        exact parseRouteBytes_truncated [id % 256] (by simp)
      · simp only [List.take_succ_cons, List.take_zero]
        exact parseRouteBytes_truncated [id % 256, id / 256 % 256] (by simp)
      · simp only [List.take_succ_cons, List.take_zero]
        exact parseRouteBytes_truncated
          [id % 256, id / 256 % 256, id / 65536 % 256] (by simp)
    · obtain ⟨k', rfl⟩ : ∃ k', k = k' + 5 := ⟨k - 5, by omega⟩
      rw [henc]
      simp only [List.take_succ_cons]
      rw [parseRouteBytes_field1, ih k' hrest]
      have hdiv : (k' + 5) / 5 = k' / 5 + 1 := by omega
      rw [hdiv, List.take_succ_cons]
      congr 1
      omega

theorem encodeRoute_length (ids : List Nat) :
    (encodeRoute ids).length = 5 * ids.length := by
  induction ids with
  | nil => rfl
  | cons id rest ih =>
    simp only [encodeRoute, List.map_cons, List.flatten_cons] at *
    simp [encodeFixed32Field, ih]
    omega

theorem bytesToHex_ne_nil {bs : List Nat} (h : bs ≠ []) :
    (bytesToHex bs).data ≠ [] := by
  cases bs with
  | nil => exact absurd rfl h
  | cons b rest => simp [bytesToHex, byteToHex]

theorem parseRouteBytes_encodeRoute (ids : List Nat)
    (h : ∀ id ∈ ids, id < 4294967296) :
    parseRouteBytes (encodeRoute ids) = ids := by
  have := parseRouteBytes_take ids (5 * ids.length) h
  rw [List.take_of_length_le (by rw [encodeRoute_length]),
      Nat.mul_div_cancel_left _ (by omega : 0 < 5),
      List.take_length] at this
  exact this

/-- Claim C2 (corrected: the original claim fails for the empty list of
identifiers, whose encoding is the empty hex string, mapped to null by
the input-validation guard).  For every non-empty list of unsigned
32-bit node identifiers, encoding each as protobuf field number 1 with
wire type 5 (header byte 0x0d followed by the identifier's four bytes in
little-endian order), concatenating the encodings, hex-encoding the
bytes, and passing the hex string to parseTraceroutePayload returns
exactly the original list of identifiers, in order. -/
theorem decoder_roundtrip (ids : List Nat) (hne : ids ≠ [])
    (h : ∀ id ∈ ids, id < 4294967296) :
    parseTraceroutePayload (bytesToHex (encodeRoute ids)) =
      some ⟨ids⟩ := by
  have hencne : encodeRoute ids ≠ [] := by
    intro hx
    have := encodeRoute_length ids
    rw [hx] at this
    cases ids with
    | nil => exact hne rfl
    | cons a l => simp at this
  unfold parseTraceroutePayload
  rw [if_neg (bytesToHex_ne_nil hencne)]
  rw [hexToBytes_bytesToHex _ (encodeRoute_bytes_lt ids),
      parseRouteBytes_encodeRoute ids h]

/-- Claim C2 witness: the spec §8.1 example, [0x12345678, 0xAABBCCDD]. -/
theorem decoder_roundtrip_witness :
    parseTraceroutePayload (bytesToHex (encodeRoute [0x12345678, 0xAABBCCDD])) =
      some ⟨[0x12345678, 0xAABBCCDD]⟩ :=
  decoder_roundtrip [0x12345678, 0xAABBCCDD] (by decide) (by decide)

/-- Claim C2 counterexample: for the empty list of identifiers the
encoding is the empty byte sequence, so the hex string is empty and
parseTraceroutePayload returns null — not the (empty) original list. -/
theorem decoder_roundtrip_empty_counterexample :
    parseTraceroutePayload (bytesToHex (encodeRoute [])) ≠
      some ⟨[]⟩ := by
  decide

/-- Claim C3 counterexample: for the empty input string the decoder
returns null, not a successful result with an empty route list. -/
theorem decoder_empty_input_counterexample :
    parseTraceroutePayload "" ≠ some ⟨[]⟩ := by
  decide

/-- Claim C3 (corrected): for the empty input string (and for null
input, which falls into the same falsy guard), parseTraceroutePayload
returns null.  It does not raise, but neither does it produce a
successful empty-route result. -/
theorem decoder_empty_input :
    parseTraceroutePayload "" = none := by
  decide

/-- Claim C4: truncating an encoded route mid-field — keeping k bytes of
the encoding where k is not a multiple of the 5-byte field size, so that
the final field header has insufficient trailing payload bytes — makes
parseTraceroutePayload stop and return exactly the ⌊k/5⌋ identifiers
that were fully read before the truncation point; no exception is raised
for partial data (the parse is total and returns a successful result). -/
theorem decoder_truncation (ids : List Nat) (k : Nat) (hne : ids ≠ [])
    (hk : k % 5 ≠ 0) (h : ∀ id ∈ ids, id < 4294967296) :
    parseTraceroutePayload (bytesToHex ((encodeRoute ids).take k)) =
      some ⟨ids.take (k / 5)⟩ := by
  have htake : (encodeRoute ids).take k ≠ [] := by
    intro hx
    have hlen := congrArg List.length hx
    rw [List.length_take, encodeRoute_length] at hlen
    simp only [List.length_nil] at hlen
    cases ids with
    | nil => exact hne rfl
    | cons a l => simp at hlen; omega
  unfold parseTraceroutePayload
  rw [if_neg (bytesToHex_ne_nil htake)]
  rw [hexToBytes_bytesToHex _
      (fun b hb => encodeRoute_bytes_lt ids b (List.mem_of_mem_take hb))]
  rw [parseRouteBytes_take ids k h]

/-- Claim C4 witness: truncating the two-identifier encoding to 7 bytes
keeps the first identifier and drops the half-read second field. -/
theorem decoder_truncation_witness :
    parseTraceroutePayload (bytesToHex ((encodeRoute [0x12345678, 0xAABBCCDD]).take 7)) =
      some ⟨[0x12345678]⟩ :=
  decoder_truncation [0x12345678, 0xAABBCCDD] 7 (by decide) (by decide) (by decide)

/-! ## Route deduplicator & grouper (TracerouteDetail.uniqueRoutes,
src/components/TracerouteVisualization.tsx) -/

/-- Decimal rendering of an unsigned number, as JS String(n) produces it
inside Array.prototype.join: most-significant digit first, no leading
zeros, with 0 rendered as "0". -/
def natRepr (n : Nat) : List Char :=
  if n = 0 then ['0'] else ((Nat.digits 10 n).map Nat.digitChar).reverse

theorem digitChar_inj {a b : Nat} (ha : a < 10) (hb : b < 10)
    (h : Nat.digitChar a = Nat.digitChar b) : a = b := by
  interval_cases a <;> interval_cases b <;> first | rfl | exact absurd h (by decide)

theorem digitChar_ne_comma {a : Nat} (ha : a < 10) : Nat.digitChar a ≠ ',' := by
  interval_cases a <;> decide

theorem mapDigitChar_inj : ∀ (l1 l2 : List Nat), (∀ x ∈ l1, x < 10) →
    (∀ x ∈ l2, x < 10) → l1.map Nat.digitChar = l2.map Nat.digitChar → l1 = l2 := by
  intro l1
  induction l1 with
  | nil => intro l2 _ _ h; cases l2 <;> simp_all
  | cons x xs ih =>
    intro l2 h1 h2 h
    cases l2 with
    | nil => simp_all
    | cons y ys =>
      simp only [List.map_cons, List.cons.injEq] at h
      have hx : x = y := digitChar_inj (h1 x (by simp)) (h2 y (by simp)) h.1
      have := ih ys (fun a ha => h1 a (by simp [ha])) (fun a ha => h2 a (by simp [ha])) h.2
      simp [hx, this]

theorem natRepr_inj : Function.Injective natRepr := by
  intro m n h
  unfold natRepr at h
  by_cases hm : m = 0 <;> by_cases hn : n = 0
  · omega
  · rw [if_pos hm, if_neg hn] at h
    have hmap : (Nat.digits 10 n).map Nat.digitChar = ['0'] := by
      have := congrArg List.reverse h
      simpa using this.symm
    have hdig : Nat.digits 10 n = [0] := by
      refine mapDigitChar_inj _ [0]
        (fun x hx => Nat.digits_lt_base (by norm_num) hx) ?_ ?_
      · intro x hx; simp at hx; omega
      · rw [hmap]; rfl
    have hofd := Nat.ofDigits_digits 10 n
    rw [hdig] at hofd
    simp [Nat.ofDigits] at hofd
    omega
  · rw [if_neg hm, if_pos hn] at h
    have hmap : (Nat.digits 10 m).map Nat.digitChar = ['0'] := by
      have := congrArg List.reverse h
      simpa using this
    have hdig : Nat.digits 10 m = [0] := by
      refine mapDigitChar_inj _ [0]
        (fun x hx => Nat.digits_lt_base (by norm_num) hx) ?_ ?_
      · intro x hx; simp at hx; omega
      · rw [hmap]; rfl
    have hofd := Nat.ofDigits_digits 10 m
    rw [hdig] at hofd
    simp [Nat.ofDigits] at hofd
    omega
  · rw [if_neg hm, if_neg hn] at h
    have := congrArg List.reverse h
    simp only [List.reverse_reverse] at this
    have hdig := mapDigitChar_inj (Nat.digits 10 m) (Nat.digits 10 n)
      (fun x hx => Nat.digits_lt_base (by norm_num) hx)
      (fun x hx => Nat.digits_lt_base (by norm_num) hx) this
    exact Nat.digits_inj_iff.mp hdig

theorem natRepr_ne_nil (n : Nat) : natRepr n ≠ [] := by
  unfold natRepr
  split
  · simp
  · intro h
    have h2 := congrArg List.length h
    simp only [List.length_reverse, List.length_map, List.length_nil] at h2
    exact absurd (List.length_eq_zero.mp h2)
      (Nat.digits_ne_nil_iff_ne_zero.mpr (by assumption))

theorem natRepr_no_comma (n : Nat) : ',' ∉ natRepr n := by
  unfold natRepr
  split
  · decide
  · intro h
    simp only [List.mem_reverse, List.mem_map] at h
    obtain ⟨d, hd, hc⟩ := h
    exact digitChar_ne_comma (Nat.digits_lt_base (by norm_num) hd) hc

/-- Array.prototype.join(',') on the rendered elements. -/
def joinComma : List (List Char) → List Char
  | [] => []
  | [s] => s
  | s :: t :: rest => s ++ ',' :: joinComma (t :: rest)

theorem append_comma_inj : ∀ (a : List Char) {b p q : List Char}, ',' ∉ a → ',' ∉ b →
    a ++ ',' :: p = b ++ ',' :: q → a = b ∧ p = q := by
  intro a
  induction a with
  | nil =>
    intro b p q _ hb h
    cases b with
    | nil => simpa using h
    | cons y ys =>
      simp only [List.nil_append, List.cons_append, List.cons.injEq] at h
      exact absurd (h.1 ▸ List.mem_cons_self ..) hb
  | cons x xs ih =>
    intro b p q ha hb h
    cases b with
    | nil =>
      simp only [List.cons_append, List.nil_append, List.cons.injEq] at h
      exact absurd (h.1 ▸ List.mem_cons_self ..) ha
    | cons y ys =>
      simp only [List.cons_append, List.cons.injEq] at h
      have hxs : ',' ∉ xs := fun hx => ha (List.mem_cons_of_mem _ hx)
      have hys : ',' ∉ ys := fun hy => hb (List.mem_cons_of_mem _ hy)
      obtain ⟨h1, h2⟩ := ih hxs hys h.2
      exact ⟨by simp [h.1, h1], h2⟩

theorem joinComma_inj : ∀ (l1 l2 : List (List Char)),
    (∀ s ∈ l1, s ≠ [] ∧ ',' ∉ s) → (∀ s ∈ l2, s ≠ [] ∧ ',' ∉ s) →
    joinComma l1 = joinComma l2 → l1 = l2 := by
  intro l1
  induction l1 with
  | nil =>
    intro l2 _ h2 h
    match l2 with
    | [] => rfl
    | [s] => exact absurd h.symm (h2 s (by simp)).1
    | s :: t :: rest =>
      exfalso
      simp only [joinComma] at h
      cases s with
      | nil => simp at h
      | cons c cs => simp at h
  | cons s1 r1 ih =>
    intro l2 h1 h2 h
    match r1, l2 with
    | [], [] => exact absurd h (h1 s1 (by simp)).1
    | [], [s] => simp only [joinComma] at h; simp [h]
    | [], s :: t :: rest =>
      exfalso
      simp only [joinComma] at h
      refine (h1 s1 (by simp)).2 ?_
      rw [h]
      simp
    | t1 :: r1', [] =>
      exfalso
      simp only [joinComma] at h
      cases s1 with
      | nil => exact (h1 [] (by simp)).1 rfl
      | cons c cs => simp at h
    | t1 :: r1', [s] =>
      exfalso
      simp only [joinComma] at h
      refine (h2 s (by simp)).2 ?_
      rw [← h]
      simp
    | t1 :: r1', s :: t :: rest =>
      simp only [joinComma] at h
      obtain ⟨hhead, htail⟩ := append_comma_inj s1
        (h1 s1 (by simp)).2 (h2 s (by simp)).2 h
      have := ih (t :: rest)
        (fun x hx => h1 x (List.mem_cons_of_mem _ hx))
        (fun x hx => h2 x (List.mem_cons_of_mem _ hx)) htail
      simp [hhead, this]

/-- The grouping key of uniqueRoutes, the template literal
`(tr.done ? 'complete' : 'incomplete') + ':' + tr.route.route.join(',')`. -/
def routeKey (done : Bool) (hops : List Nat) : List Char :=
  (if done then "complete" else "incomplete").data ++
    ':' :: joinComma (hops.map natRepr)

/-- Claim C5: the grouper keys observations (that carry hop data) by
routeKey, so two such observations land in the same RouteGroup exactly
when their keys are equal; key equality holds if and only if the
completion flags are equal and the hop sequences are exactly equal
element-for-element.  In particular identical hop sequences with
opposite completion flags always produce two distinct keys, hence two
separate groups. -/
theorem grouping_key_iff (d1 d2 : Bool) (h1 h2 : List Nat) :
    routeKey d1 h1 = routeKey d2 h2 ↔ d1 = d2 ∧ h1 = h2 := by
  constructor
  · intro h
    unfold routeKey at h
    have hflag : d1 = d2 := by
      by_contra hne
      rcases Bool.eq_false_or_eq_true d1 with hd1 | hd1 <;>
        rcases Bool.eq_false_or_eq_true d2 with hd2 | hd2 <;>
          subst hd1 <;> subst hd2 <;> simp_all
    subst hflag
    refine ⟨rfl, ?_⟩
    have hjoin : joinComma (h1.map natRepr) = joinComma (h2.map natRepr) := by
      rcases d1 <;> · simp only [List.append_cancel_left_eq, List.cons.injEq] at h; exact h.2
    have hmaps := joinComma_inj (h1.map natRepr) (h2.map natRepr)
      (by rintro s hs; simp only [List.mem_map] at hs; obtain ⟨n, _, rfl⟩ := hs
          exact ⟨natRepr_ne_nil n, natRepr_no_comma n⟩)
      (by rintro s hs; simp only [List.mem_map] at hs; obtain ⟨n, _, rfl⟩ := hs
          exact ⟨natRepr_ne_nil n, natRepr_no_comma n⟩) hjoin
    exact List.map_injective_iff.mpr natRepr_inj hmaps
  · rintro ⟨rfl, rfl⟩
    rfl

/-- One traceroute observation as the API returns it (interface
TraceroutePacket): reporting gateway, completion flag and the decoded
hop list of tr.route.route — absent when the route payload is missing
(tr.route?.route undefined).  Record ids, raw hex and the import
timestamp are carried through the grouper unchanged and take no part in
any logic, so they are not modelled. -/
structure TraceroutePacket where
  gateway_node_id : Nat
  done : Bool
  route : Option (List Nat)
deriving DecidableEq

/-- One entry of the uniqueRoutes route map: the Map key together with
the stored value { route: tr (representative), gateways, count,
completed }. -/
structure RouteGroup where
  key : List Char
  rep : TraceroutePacket
  gateways : List Nat
  count : Nat
  completed : Bool
deriving DecidableEq

/-- Processing one observation against the route map: an existing key
pushes the reporting gateway and bumps the count in place, a new key
appends a fresh entry (JS Map preserves first-insertion order, and
updating a value keeps its position). -/
def insertObs (tr : TraceroutePacket) (hops : List Nat) :
    List RouteGroup → List RouteGroup
  | [] => [⟨routeKey tr.done hops, tr, [tr.gateway_node_id], 1, tr.done⟩]
  | g :: rest =>
    if g.key = routeKey tr.done hops then
      { g with gateways := g.gateways ++ [tr.gateway_node_id],
               count := g.count + 1 } :: rest
    else g :: insertObs tr hops rest

/-- The grouping pass of uniqueRoutes; observations without hop data
(!tr.route?.route) are skipped. -/
def groupRoutes (trs : List TraceroutePacket) : List RouteGroup :=
  trs.foldl (fun m tr =>
    match tr.route with
    | none => m
    | some hops => insertObs tr hops m) []

/-- Stable insertion of a later element into the already-sorted
accumulator: it goes after every element that the comparator does not
place strictly after it. -/
def insertStable {α : Type} (le : α → α → Bool) (a : α) : List α → List α
  | [] => [a]
  | b :: l => if le b a then b :: insertStable le a l else a :: b :: l

/-- Array.prototype.sort with a comparator: for a consistent comparator
ECMAScript determines the output uniquely as the stable reordering that
is sorted by the comparator, which this left-to-right stable insertion
sort produces. -/
def jsSortBy {α : Type} (le : α → α → Bool) (l : List α) : List α :=
  l.foldl (fun acc a => insertStable le a acc) []

theorem mem_insertStable {α : Type} {le : α → α → Bool} {a x : α} :
    ∀ {l : List α}, x ∈ insertStable le a l ↔ x = a ∨ x ∈ l := by
  intro l
  induction l with
  | nil => simp [insertStable]
  | cons b t ih =>
    simp only [insertStable]
    split
    · simp only [List.mem_cons, ih]
      tauto
    · simp [List.mem_cons]

theorem insertStable_pairwise {α : Type} {le : α → α → Bool}
    (htot : ∀ a b, le a b = true ∨ le b a = true)
    (htrans : ∀ a b c, le a b = true → le b c = true → le a c = true)
    (a : α) : ∀ {l : List α}, l.Pairwise (le · · = true) →
      (insertStable le a l).Pairwise (le · · = true) := by
  intro l
  induction l with
  | nil => simp [insertStable]
  | cons b t ih =>
    intro hp
    rw [List.pairwise_cons] at hp
    simp only [insertStable]
    split
    · rename_i hba
      rw [List.pairwise_cons]
      refine ⟨?_, ih hp.2⟩
      intro x hx
      rcases mem_insertStable.mp hx with rfl | hx
      · exact hba
      · exact hp.1 x hx
    · rename_i hba
      have hab : le a b = true := by
        rcases htot a b with h | h
        · exact h
        · exact absurd h hba
      rw [List.pairwise_cons]
      constructor
      · intro x hx
        rcases List.mem_cons.mp hx with rfl | hx
        · exact hab
        · exact htrans a b x hab (hp.1 x hx)
      · exact List.pairwise_cons.mpr hp

theorem jsSortBy_pairwise {α : Type} {le : α → α → Bool}
    (htot : ∀ a b, le a b = true ∨ le b a = true)
    (htrans : ∀ a b c, le a b = true → le b c = true → le a c = true)
    (l : List α) : (jsSortBy le l).Pairwise (le · · = true) := by
  suffices h : ∀ (l : List α) (acc : List α), acc.Pairwise (le · · = true) →
      (l.foldl (fun acc a => insertStable le a acc) acc).Pairwise (le · · = true) by
    exact h l [] (by simp)
  intro l
  induction l with
  | nil => intro acc hacc; exact hacc
  | cons a t ih =>
    intro acc hacc
    exact ih _ (insertStable_pairwise htot htrans a hacc)

/-- The hop count the uniqueRoutes comparator reads:
`x.route.route?.route?.length || 0`. -/
def hopCount (g : RouteGroup) : Nat := (g.rep.route.getD []).length

/-- The uniqueRoutes comparator: completed groups first; then fewer
hops first; then higher observation count first. -/
def routeGroupCmp (a b : RouteGroup) : Int :=
  if a.completed ≠ b.completed then (if a.completed then -1 else 1)
  else if hopCount a ≠ hopCount b then (hopCount a : Int) - (hopCount b : Int)
  else (b.count : Int) - (a.count : Int)

/-- Non-positive comparator result: a may stay before b. -/
def routeGroupLe (a b : RouteGroup) : Bool := routeGroupCmp a b ≤ 0

/-- uniqueRoutes: group the observations, then sort the map values. -/
def uniqueRoutes (trs : List TraceroutePacket) : List RouteGroup :=
  jsSortBy routeGroupLe (groupRoutes trs)

theorem routeGroupLe_total (a b : RouteGroup) :
    routeGroupLe a b = true ∨ routeGroupLe b a = true := by
  simp only [routeGroupLe, decide_eq_true_eq]
  unfold routeGroupCmp
  rcases Bool.eq_false_or_eq_true a.completed with ha | ha <;>
    rcases Bool.eq_false_or_eq_true b.completed with hb | hb <;>
      simp only [ha, hb, ne_eq] <;> norm_num <;> split_ifs <;> omega

theorem routeGroupLe_trans (a b c : RouteGroup) (hab : routeGroupLe a b = true)
    (hbc : routeGroupLe b c = true) : routeGroupLe a c = true := by
  simp only [routeGroupLe, decide_eq_true_eq] at hab hbc ⊢
  unfold routeGroupCmp at hab hbc ⊢
  rcases Bool.eq_false_or_eq_true a.completed with ha | ha <;>
    rcases Bool.eq_false_or_eq_true b.completed with hb | hb <;>
      rcases Bool.eq_false_or_eq_true c.completed with hc | hc <;>
        simp only [ha, hb, hc, ne_eq] at hab hbc ⊢ <;>
          norm_num at hab hbc ⊢ <;> split_ifs at hab hbc ⊢ <;> omega

/-- Claim C6: for every list of RouteObservations, the uniqueRoutes
output is ordered so that every completed group precedes every
incomplete group; among groups of equal completion status, groups with
fewer hops precede groups with more hops; and among groups equal in
both respects, groups with a higher observation count precede groups
with a lower one. -/
theorem uniqueRoutes_ordered (trs : List TraceroutePacket) :
    (uniqueRoutes trs).Pairwise (fun a b =>
      (b.completed = true → a.completed = true) ∧
      (a.completed = b.completed → hopCount a ≤ hopCount b) ∧
      (a.completed = b.completed → hopCount a = hopCount b →
        b.count ≤ a.count)) := by
  have hs := jsSortBy_pairwise routeGroupLe_total routeGroupLe_trans
    (groupRoutes trs)
  refine hs.imp ?_
  intro a b hle
  have hc : routeGroupCmp a b ≤ 0 := by
    simpa only [routeGroupLe, decide_eq_true_eq] using hle
  unfold routeGroupCmp at hc
  by_cases hcmp : a.completed = b.completed
  · rw [if_neg (by simp [hcmp])] at hc
    refine ⟨fun h => by rw [hcmp]; exact h, ?_, ?_⟩
    · intro _
      by_cases hh : hopCount a = hopCount b
      · omega
      · rw [if_pos hh] at hc
        omega
    · intro _ hh
      rw [if_neg (by simp [hh])] at hc
      omega
  · rw [if_pos hcmp] at hc
    rcases Bool.eq_false_or_eq_true a.completed with ha | ha
    · exact ⟨fun _ => ha, fun h => absurd h hcmp, fun h _ => absurd h hcmp⟩
    · rw [ha] at hc
      norm_num at hc

/-! ## JS Map model: insertion-ordered association list.  Map.set
updates an existing key in place (keeping its position) and appends a
new key at the end; Map.get returns the stored value or undefined. -/

/-- Map.set. -/
def mapSet {κ ν : Type} [DecidableEq κ] (k : κ) (v : ν) :
    List (κ × ν) → List (κ × ν)
  | [] => [(k, v)]
  | (k', v') :: rest =>
    if k' = k then (k, v) :: rest else (k', v') :: mapSet k v rest

/-- Map.get. -/
def mapGet {κ ν : Type} [DecidableEq κ] (k : κ) : List (κ × ν) → Option ν
  | [] => none
  | (k', v') :: rest => if k' = k then some v' else mapGet k rest

theorem mapGet_mapSet {κ ν : Type} [DecidableEq κ] (k k' : κ) (v : ν)
    (m : List (κ × ν)) :
    mapGet k (mapSet k' v m) = if k' = k then some v else mapGet k m := by
  induction m with
  | nil =>
    simp only [mapSet, mapGet]
  | cons p rest ih =>
    obtain ⟨k2, v2⟩ := p
    simp only [mapSet]
    by_cases h2 : k2 = k'
    · rw [if_pos h2]
      by_cases h3 : k' = k
      · simp [mapGet, h3]
      · simp [mapGet, h3]
        rw [if_neg (by rw [h2]; exact h3)]
    · rw [if_neg h2]
      by_cases h3 : k2 = k
      · rw [mapGet, if_pos h3, mapGet, if_pos h3]
        rw [if_neg (by rw [← h3]; exact fun hx => h2 hx.symm)]
      · rw [mapGet, if_neg h3, mapGet, if_neg h3, ih]

/-! ## Relay disambiguator (src/components/PacketDetail.tsx) -/

/-- A directory node as the disambiguator reads it: identifier, channel
name, and raw fixed-point coordinates (absent when the backend has
none).  The NodeLookup map stores every node under two string keys (the
zero-padded 8-digit hex form and the decimal form of node_id); the two
key spaces never collide, so the map behaves as one insertion-ordered
map keyed by node_id, which is how it is modelled here. -/
structure DirNode where
  node_id : Nat
  channel : String
  last_lat : Option Int
  last_long : Option Int
deriving DecidableEq

/-- NodeLookup.updateNodes: each node is written over any earlier node
with the same node_id (Map.set keeps the first-insertion position). -/
def nodeLookupMap (nodes : List DirNode) : List (Nat × DirNode) :=
  nodes.foldl (fun m n => mapSet n.node_id n m) []

/-- NodeLookup.getAllNodes: the map values, deduplicated by node_id in
visit order (the map holds each node once per key form). -/
def getAllNodes (nodes : List DirNode) : List DirNode :=
  (nodeLookupMap nodes).map Prod.snd

/-- NodeLookup.getNode. -/
def getNode (nodes : List DirNode) (id : Nat) : Option DirNode :=
  mapGet id (nodeLookupMap nodes)

/-- The per-gateway fields the disambiguator reads from a packet's
gateway entry. -/
structure GatewayInfo where
  node_id : Nat
  relay_node : Option Nat
deriving DecidableEq

/-- The Phase-1 candidate collection for one relay byte: the directory
nodes on the packet's channel whose low byte (node_id & 255, i.e.
node_id % 256) equals the relay byte. -/
def phase1Potential (nodes : List DirNode) (channel : String)
    (relay : Nat) : List Nat :=
  ((getAllNodes nodes).filter
    (fun n => n.channel == channel && n.node_id % 256 == relay)).map (·.node_id)

/-- One gateway's step of the Phase-1 effect: a gateway without a
relay_node, or one whose candidate list is empty, inserts nothing. -/
def phase1Step (nodes : List DirNode) (channel : String)
    (m : List (Nat × List Nat)) (gw : GatewayInfo) : List (Nat × List Nat) :=
  match gw.relay_node with
  | none => m
  | some relay =>
    if (phase1Potential nodes channel relay).length > 0 then
      mapSet gw.node_id (phase1Potential nodes channel relay) m
    else m

/-- Phase 1 (the relay-lookup effect, PacketDetail.tsx lines 97–132):
fold the gateways of the packet into a fresh relayMatches map. -/
def phase1Matches (nodes : List DirNode) (channel : String)
    (gateways : List GatewayInfo) : List (Nat × List Nat) :=
  gateways.foldl (phase1Step nodes channel) []

/-- One entry of the node-neighbors response. -/
structure NeighborEntry where
  node_id : Nat
  packet_count : Nat
deriving DecidableEq

/-- api.getNodeNeighbors response. -/
structure NodeNeighbors where
  heard_from : List NeighborEntry
  heard_by : List NeighborEntry
deriving DecidableEq

/-- The heard-list comparator (a, b) => b.packet_count - a.packet_count:
highest count first. -/
def neighborLe (a b : NeighborEntry) : Bool :=
  (b.packet_count : Int) - (a.packet_count : Int) ≤ 0

/-- The matchingNeighbors list of refineSingleRelay: heard_from entries
whose low byte equals the relay byte, falling back to the equally
filtered heard_by when none match. -/
def refineMatching (relayByte : Nat) (neighbors : NodeNeighbors) :
    List NeighborEntry :=
  if (neighbors.heard_from.filter
      (fun n => n.node_id % 256 == relayByte)).length = 0 then
    neighbors.heard_by.filter (fun n => n.node_id % 256 == relayByte)
  else
    neighbors.heard_from.filter (fun n => n.node_id % 256 == relayByte)

/-- Phase 2 (refineSingleRelay, PacketDetail.tsx lines 135–200), the
relayMatches update performed once the neighbors response arrives: when
matches exist, sort them by packet_count descending (stable) and store
the top entry's node_id as the single resolved candidate for the
gateway; when neither heard list matches, the map is left unchanged. -/
def refineSingleRelay (m : List (Nat × List Nat)) (gwNodeId relayByte : Nat)
    (neighbors : NodeNeighbors) : List (Nat × List Nat) :=
  match jsSortBy neighborLe (refineMatching relayByte neighbors) with
  | [] => m
  | best :: _ => mapSet gwNodeId [best.node_id] m

theorem insertStable_perm {α : Type} (le : α → α → Bool) (a : α) :
    ∀ (l : List α), List.Perm (insertStable le a l) (a :: l) := by
  intro l
  induction l with
  | nil => simp [insertStable]
  | cons b t ih =>
    simp only [insertStable]
    split
    · exact (ih.cons b).trans (List.Perm.swap a b t)
    · exact List.Perm.refl _

theorem jsSortBy_perm {α : Type} (le : α → α → Bool) (l : List α) :
    List.Perm (jsSortBy le l) l := by
  suffices h : ∀ (l acc : List α),
      List.Perm (l.foldl (fun acc a => insertStable le a acc) acc) (acc ++ l) by
    simpa using h l []
  intro l
  induction l with
  | nil => simp
  | cons a t ih =>
    intro acc
    refine (ih (insertStable le a acc)).trans ?_
    refine List.Perm.trans ((insertStable_perm le a acc).append_right t) ?_
    exact List.perm_middle.symm

/-- Claim C1 counterexample.  Directory: the single node 0x105 = 261 on
channel "LongFast"; packet channel "LongFast"; gateway 7 reports relay
byte 5, so its Phase-1 candidate set is the non-empty [261].  The
gateway's heard_from history contains node 0x205 = 517 (same low byte,
10 packets), which is outside the directory, and Phase 2 replaces the
entry with [517] — a node identifier absent from the Phase-1 set. -/
theorem refine_widens_counterexample :
    mapGet 7 (phase1Matches [⟨261, "LongFast", none, none⟩] "LongFast"
        [⟨7, some 5⟩]) = some [261] ∧
    mapGet 7 (refineSingleRelay (phase1Matches [⟨261, "LongFast", none, none⟩]
        "LongFast" [⟨7, some 5⟩]) 7 5 ⟨[⟨517, 10⟩], []⟩) = some [517] ∧
    (517 : Nat) ∉ [261] := by
  decide

/-- Claim C1 (corrected).  Phase-2 refinement is not a subset operation
on the Phase-1 candidate set: it either leaves the relayMatches map
unchanged, or replaces the gateway's entry with a single candidate
drawn from the gateway's heard_from (or, as fallback, heard_by) history
whose low byte equals the relay byte, leaving all other gateways'
entries untouched.  The selected candidate is filtered only by relay
byte — never intersected with the Phase-1 (directory ∩ channel) set —
so it need not belong to that set. -/
theorem refineSingleRelay_spec (m : List (Nat × List Nat))
    (gw relay : Nat) (nb : NodeNeighbors) :
    refineSingleRelay m gw relay nb = m ∨
    ∃ b, b % 256 = relay ∧
      (b ∈ nb.heard_from.map (·.node_id) ∨ b ∈ nb.heard_by.map (·.node_id)) ∧
      mapGet gw (refineSingleRelay m gw relay nb) = some [b] ∧
      ∀ k, k ≠ gw → mapGet k (refineSingleRelay m gw relay nb) = mapGet k m := by
  rcases hsort : jsSortBy neighborLe (refineMatching relay nb) with _ | ⟨best, rest⟩
  · left
    unfold refineSingleRelay
    rw [hsort]
  · right
    have hmem : best ∈ refineMatching relay nb :=
      (jsSortBy_perm neighborLe (refineMatching relay nb)).mem_iff.mp
        (by rw [hsort]; exact List.mem_cons_self ..)
    have hrw : refineSingleRelay m gw relay nb = mapSet gw [best.node_id] m := by
      unfold refineSingleRelay
      rw [hsort]
    refine ⟨best.node_id, ?_, ?_, ?_, ?_⟩
    · unfold refineMatching at hmem
      split at hmem <;>
        · have := (List.mem_filter.mp hmem).2
          simpa using this
    · unfold refineMatching at hmem
      split at hmem
      · exact Or.inr (List.mem_map.mpr ⟨best, (List.mem_filter.mp hmem).1, rfl⟩)
      · exact Or.inl (List.mem_map.mpr ⟨best, (List.mem_filter.mp hmem).1, rfl⟩)
    · rw [hrw, mapGet_mapSet, if_pos rfl]
    · intro k hk
      rw [hrw, mapGet_mapSet, if_neg (fun hx => hk hx.symm)]

/-- Claim C10: every candidate list stored in the relayMatches map is
non-empty.  Phase 1 inserts an entry for a gateway only when at least
one directory node matches (zero candidates insert nothing), and the
Phase-2 update writes only one-element lists, so both phases preserve
the invariant that every value present in the map has length ≥ 1. -/
theorem relayMatches_nonempty :
    (∀ (nodes : List DirNode) (channel : String) (gws : List GatewayInfo)
        (k : Nat) (v : List Nat),
        mapGet k (phase1Matches nodes channel gws) = some v → v ≠ []) ∧
    (∀ (m : List (Nat × List Nat)) (gw relay : Nat) (nb : NodeNeighbors),
        (∀ k v, mapGet k m = some v → v ≠ []) →
        ∀ k v, mapGet k (refineSingleRelay m gw relay nb) = some v → v ≠ []) := by
  constructor
  · intro nodes channel gws
    unfold phase1Matches
    suffices h : ∀ (gws : List GatewayInfo) (m : List (Nat × List Nat)),
        (∀ k v, mapGet k m = some v → v ≠ []) →
        ∀ k v, mapGet k (gws.foldl (phase1Step nodes channel) m) = some v →
          v ≠ [] by
      exact h gws [] (by intro k v hv; simp [mapGet] at hv)
    intro gws
    induction gws with
    | nil => exact fun m hm => hm
    | cons gw rest ih =>
      intro m hm
      simp only [List.foldl_cons]
      refine ih _ ?_
      unfold phase1Step
      rcases gw.relay_node with _ | relay
      · exact hm
      · simp only []
        split
        · rename_i hlen
          intro k v hv
          rw [mapGet_mapSet] at hv
          split at hv
          · cases hv
            intro hnil
            rw [hnil] at hlen
            simp at hlen
          · exact hm k v hv
        · exact hm
  · intro m gw relay nb hm k v hv
    rcases hsort : jsSortBy neighborLe (refineMatching relay nb) with _ | ⟨best, rest⟩
    · unfold refineSingleRelay at hv
      rw [hsort] at hv
      exact hm k v hv
    · unfold refineSingleRelay at hv
      rw [hsort, mapGet_mapSet] at hv
      split at hv
      · cases hv
        simp
      · exact hm k v hv

/-- Claim C10 witness: a concrete Phase-1 map followed by a Phase-2
refinement, both evaluated. -/
theorem relayMatches_nonempty_witness :
    ([517] : List Nat) ≠ [] :=
  relayMatches_nonempty.2
    (phase1Matches [⟨261, "LongFast", none, none⟩] "LongFast" [⟨7, some 5⟩])
    7 5 ⟨[⟨517, 10⟩], []⟩
    (fun k v hv => relayMatches_nonempty.1
      [⟨261, "LongFast", none, none⟩] "LongFast" [⟨7, some 5⟩] k v hv)
    7 [517] (by decide)

/-! ## Ambiguous-candidate distance ordering (PacketDetail.tsx 520–545) -/

/-- getDistance (PacketDetail.tsx lines 279–296): null when either node
is unknown, lacks a coordinate, or carries the 0,0 sentinel; otherwise
the Haversine distance on the decimal-degree coordinates raw / 10^7.
calculateDistance itself evaluates sin/cos/sqrt/atan2 on binary
floating-point numbers, which a shallow embedding cannot reproduce
exactly; it is therefore a parameter hav of the model, and every
ordering property below is proven universally over it — the sort only
ever compares the resulting numbers. -/
def getDistance (hav : ℚ → ℚ → ℚ → ℚ → ℚ) (nodes : List DirNode)
    (fromId toId : Nat) : Option ℚ :=
  match getNode nodes fromId, getNode nodes toId with
  | some fromNode, some toNode =>
    match fromNode.last_lat, fromNode.last_long,
        toNode.last_lat, toNode.last_long with
    | some flat, some flong, some tlat, some tlong =>
      if flat = 0 ∨ flong = 0 ∨ tlat = 0 ∨ tlong = 0 then none
      else some (hav ((flat : ℚ) / 10000000) ((flong : ℚ) / 10000000)
          ((tlat : ℚ) / 10000000) ((tlong : ℚ) / 10000000))
    | _, _, _, _ => none
  | _, _ => none

/-- The matchesWithDistance comparator (PacketDetail.tsx lines 536–541):
two null distances compare equal; a null distance sorts after any
number; otherwise ascending numeric order. -/
def relayMatchLe (a b : Nat × Option ℚ) : Bool :=
  match a.2, b.2 with
  | none, none => true
  | none, some _ => false
  | some _, none => true
  | some x, some y => decide (x ≤ y)

/-- The ambiguous-set display order: each candidate is paired with its
distance from the gateway, then the pairs are sorted with the
comparator. -/
def sortedRelayMatches (hav : ℚ → ℚ → ℚ → ℚ → ℚ) (nodes : List DirNode)
    (gwId : Nat) (cands : List Nat) : List (Nat × Option ℚ) :=
  jsSortBy relayMatchLe
    (cands.map (fun nodeId => (nodeId, getDistance hav nodes gwId nodeId)))

theorem relayMatchLe_total (a b : Nat × Option ℚ) :
    relayMatchLe a b = true ∨ relayMatchLe b a = true := by
  obtain ⟨a1, a2⟩ := a
  obtain ⟨b1, b2⟩ := b
  rcases a2 with _ | x <;> rcases b2 with _ | y <;> simp [relayMatchLe]
  exact le_total x y

theorem relayMatchLe_trans (a b c : Nat × Option ℚ)
    (hab : relayMatchLe a b = true) (hbc : relayMatchLe b c = true) :
    relayMatchLe a c = true := by
  obtain ⟨a1, a2⟩ := a
  obtain ⟨b1, b2⟩ := b
  obtain ⟨c1, c2⟩ := c
  rcases a2 with _ | x <;> rcases b2 with _ | y <;>
    rcases c2 with _ | z <;> simp_all [relayMatchLe]
  exact le_trans hab hbc

theorem insertStable_of_le_all {α : Type} {le : α → α → Bool} {x : α} :
    ∀ {l : List α}, (∀ b ∈ l, le b x = true) →
      insertStable le x l = l ++ [x] := by
  intro l
  induction l with
  | nil => intro _; rfl
  | cons b t ih =>
    intro h
    simp only [insertStable]
    rw [if_pos (h b (List.mem_cons_self ..))]
    rw [ih (fun y hy => h y (List.mem_cons_of_mem _ hy))]
    rfl

theorem filter_insertStable_neg {α : Type} (p : α → Bool) (le : α → α → Bool)
    (x : α) (hx : p x = false) :
    ∀ (l : List α), (insertStable le x l).filter p = l.filter p := by
  intro l
  induction l with
  | nil => simp [insertStable, List.filter_cons, hx]
  | cons b t ih =>
    simp only [insertStable]
    split
    · simp only [List.filter_cons]
      rw [ih]
    · simp only [List.filter_cons, hx]
      simp

/-- Stability of the candidate sort for locationless entries: sorting
never reorders the entries whose distance is null. -/
theorem jsSortBy_filter_nones (l : List (Nat × Option ℚ)) :
    (jsSortBy relayMatchLe l).filter (fun p => p.2.isNone) =
      l.filter (fun p => p.2.isNone) := by
  suffices h : ∀ (l acc : List (Nat × Option ℚ)),
      ((l.foldl (fun acc a => insertStable relayMatchLe a acc) acc).filter
        (fun p => p.2.isNone)) =
      acc.filter (fun p => p.2.isNone) ++ l.filter (fun p => p.2.isNone) by
    simpa using h l []
  intro l
  induction l with
  | nil => simp
  | cons x t ih =>
    intro acc
    simp only [List.foldl_cons]
    rw [ih]
    rcases hx : x.2 with _ | d
    · have hend : ∀ b ∈ acc, relayMatchLe b x = true := by
        intro b _
        obtain ⟨b1, b2⟩ := b
        obtain ⟨x1, x2⟩ := x
        simp only at hx
        subst hx
        rcases b2 with _ | y <;> simp [relayMatchLe]
      rw [insertStable_of_le_all hend]
      rw [List.filter_append]
      have hxp : (fun p : Nat × Option ℚ => p.2.isNone) x = true := by
        simp [hx]
      simp only [List.filter_cons, hxp, List.filter_nil]
      simp
    · have hxp : (fun p : Nat × Option ℚ => p.2.isNone) x = false := by
        simp [hx]
      rw [filter_insertStable_neg (fun p => p.2.isNone) relayMatchLe x hxp]
      simp only [List.filter_cons, hxp]
      simp

/-- Claim C9: when an ambiguous Phase-1 candidate set is rendered and
the reporting gateway has known (non-sentinel) coordinates, the
candidates are displayed in ascending order of the distance computed by
getDistance (Haversine on raw coordinates divided by 10,000,000): the
display list is a permutation of the candidate list; located candidates
appear in ascending distance order; every candidate without a usable
location is placed after all located candidates; and the unlocated
candidates keep their input order among themselves.  Proven for every
distance function hav, hence in particular for the floating-point
Haversine. -/
theorem relay_distance_order (hav : ℚ → ℚ → ℚ → ℚ → ℚ)
    (nodes : List DirNode) (gwId : Nat) (cands : List Nat)
    (gwNode : DirNode) (_hgw : getNode nodes gwId = some gwNode)
    (_hlat : gwNode.last_lat ≠ none ∧ gwNode.last_lat ≠ some 0)
    (_hlong : gwNode.last_long ≠ none ∧ gwNode.last_long ≠ some 0)
    (_hambig : 1 < cands.length) :
    List.Perm (sortedRelayMatches hav nodes gwId cands)
      (cands.map (fun n => (n, getDistance hav nodes gwId n))) ∧
    (sortedRelayMatches hav nodes gwId cands).Pairwise
      (fun a b => ∀ x y, a.2 = some x → b.2 = some y → x ≤ y) ∧
    (sortedRelayMatches hav nodes gwId cands).Pairwise
      (fun a b => a.2 = none → b.2 = none) ∧
    (sortedRelayMatches hav nodes gwId cands).filter (fun p => p.2.isNone) =
      (cands.map (fun n => (n, getDistance hav nodes gwId n))).filter
        (fun p => p.2.isNone) := by
  have hpair := jsSortBy_pairwise relayMatchLe_total relayMatchLe_trans
    (cands.map (fun nodeId => (nodeId, getDistance hav nodes gwId nodeId)))
  refine ⟨jsSortBy_perm _ _, ?_, ?_, jsSortBy_filter_nones _⟩
  · refine hpair.imp ?_
    intro a b hle x y hx hy
    unfold relayMatchLe at hle
    rw [hx, hy] at hle
    simpa using hle
  · refine hpair.imp ?_
    intro a b hle ha
    unfold relayMatchLe at hle
    rw [ha] at hle
    rcases hb : b.2 with _ | y
    · rfl
    · rw [hb] at hle
      simp at hle

/-- Claim C9 witness: gateway 9 at raw (1e8, 2e8); candidate 261 far,
candidate 517 near, candidate 773 without location; with a concrete
computable distance function the theorem applies and its hypotheses
evaluate. -/
theorem relay_distance_order_witness :
    List.Perm (sortedRelayMatches (fun la _ ta _ => (la - ta) * (la - ta))
      [⟨9, "c", some 100000000, some 200000000⟩,
       ⟨261, "c", some 300000000, some 200000000⟩,
       ⟨517, "c", some 120000000, some 200000000⟩,
       ⟨773, "c", none, none⟩] 9 [261, 517, 773])
      ([261, 517, 773].map (fun n => (n, getDistance
        (fun la _ ta _ => (la - ta) * (la - ta))
        [⟨9, "c", some 100000000, some 200000000⟩,
         ⟨261, "c", some 300000000, some 200000000⟩,
         ⟨517, "c", some 120000000, some 200000000⟩,
         ⟨773, "c", none, none⟩] 9 n))) :=
  (relay_distance_order (fun la _ ta _ => (la - ta) * (la - ta))
    [⟨9, "c", some 100000000, some 200000000⟩,
     ⟨261, "c", some 300000000, some 200000000⟩,
     ⟨517, "c", some 120000000, some 200000000⟩,
     ⟨773, "c", none, none⟩] 9 [261, 517, 773]
    ⟨9, "c", some 100000000, some 200000000⟩ (by decide)
    (by decide) (by decide) (by decide)).1

/-! ## Network graph builder (TracerouteDetail graph effect,
src/components/TracerouteVisualization.tsx lines 379–483) -/

/-- GraphNode role classification. -/
inductive NodeType where
  | source
  | destination
  | intermediate
  | gateway
deriving DecidableEq

/-- A node of the reconstructed graph (interface GraphNode); the x, y
layout fields are produced later by calculateLayeredLayout and the
display name is presentation-only, so neither is part of the build
model. -/
structure GraphNode where
  id : Nat
  nodeType : NodeType
  count : Nat
deriving DecidableEq

/-- A directed edge with observation count (interface GraphEdge, fields
from / to / count). -/
structure GraphEdge where
  efrom : Nat
  eto : Nat
  count : Nat
deriving DecidableEq

/-- In-place update of an existing key (obj.field++ on a Map value). -/
def mapUpdate {κ ν : Type} [DecidableEq κ] (k : κ) (f : ν → ν) :
    List (κ × ν) → List (κ × ν)
  | [] => []
  | (k', v) :: rest =>
    if k' = k then (k', f v) :: rest else (k', v) :: mapUpdate k f rest

theorem mapGet_mapUpdate {κ ν : Type} [DecidableEq κ] (k k' : κ) (f : ν → ν)
    (m : List (κ × ν)) :
    mapGet k (mapUpdate k' f m) =
      if k' = k then (mapGet k m).map f else mapGet k m := by
  induction m with
  | nil => simp [mapUpdate, mapGet]
  | cons p rest ih =>
    obtain ⟨k2, v2⟩ := p
    simp only [mapUpdate]
    by_cases h2 : k2 = k'
    · rw [if_pos h2]
      by_cases h3 : k' = k
      · rw [if_pos h3, mapGet, if_pos (h2.trans h3), mapGet, if_pos (h2.trans h3)]
        rfl
      · rw [if_neg h3, mapGet, if_neg (fun hx => h3 (h2 ▸ hx)), mapGet,
          if_neg (fun hx => h3 (h2 ▸ hx))]
    · rw [if_neg h2]
      by_cases h3 : k2 = k
      · rw [mapGet, if_pos h3, mapGet, if_pos h3]
        rw [if_neg (fun hx : k' = k => h2 (h3 ▸ hx.symm))]
      · rw [mapGet, if_neg h3, mapGet, if_neg h3, ih]

/-- The nodesOnCompletedRoutes set: every hop of every completed
observation that carries route data (modelled as a list whose
membership is the set membership). -/
def completedHops (trs : List TraceroutePacket) : List Nat :=
  trs.foldl (fun s tr =>
    if tr.done then
      match tr.route with
      | some hops => s ++ hops
      | none => s
    else s) []

/-- The classification given to a node first inserted while walking an
observation: nodesOnCompletedRoutes.has(id) ? 'intermediate' :
'gateway'. -/
def nodeTypeFor (trs : List TraceroutePacket) (n : Nat) : NodeType :=
  if (completedHops trs).contains n then .intermediate else .gateway

/-- if (!nodeMap.has(id)) nodeMap.set(id, { …, type, count: 0 }). -/
def addNodeIfAbsent (trs : List TraceroutePacket)
    (m : List (Nat × GraphNode)) (n : Nat) : List (Nat × GraphNode) :=
  match mapGet n m with
  | some _ => m
  | none => mapSet n ⟨n, nodeTypeFor trs n, 0⟩ m

/-- nodeMap.get(id)!.count++. -/
def bumpCount (m : List (Nat × GraphNode)) (n : Nat) :
    List (Nat × GraphNode) :=
  mapUpdate n (fun g => { g with count := g.count + 1 }) m

/-- The full path of one observation: [source, ...hops, dest] when done
(dest appended even for empty hops), [source, ...hops] when not. -/
def fullPathOf (src dst : Nat) (tr : TraceroutePacket)
    (hops : List Nat) : List Nat :=
  if tr.done then
    (if hops.length > 0 then src :: hops ++ [dst] else [src, dst])
  else
    (if hops.length > 0 then src :: hops else [src])

/-- Consecutive pairs of a path (the i / i+1 edge walk). -/
def pathPairs : List Nat → List (Nat × Nat)
  | a :: b :: rest => (a, b) :: pathPairs (b :: rest)
  | _ => []

/-- Edge insertion: create the (from,to) edge with count 0 when absent,
then increment its count.  The source keys edgeMap by the template
string from + '-' + to, which is in bijection with the pair. -/
def addEdge (em : List ((Nat × Nat) × GraphEdge)) (p : Nat × Nat) :
    List ((Nat × Nat) × GraphEdge) :=
  mapUpdate p (fun e => { e with count := e.count + 1 })
    (match mapGet p em with
     | some _ => em
     | none => mapSet p ⟨p.1, p.2, 0⟩ em)

/-- Processing of one observation in the graph-building effect. -/
def graphStep (trs : List TraceroutePacket) (src dst : Nat)
    (state : List (Nat × GraphNode) × List ((Nat × Nat) × GraphEdge))
    (tr : TraceroutePacket) :
    List (Nat × GraphNode) × List ((Nat × Nat) × GraphEdge) :=
  match tr.route with
  | none => state
  | some hops =>
    let nm1 := bumpCount (addNodeIfAbsent trs state.1 tr.gateway_node_id)
      tr.gateway_node_id
    let nm2 := hops.foldl (fun m n => bumpCount (addNodeIfAbsent trs m n) n) nm1
    let em2 := (pathPairs (fullPathOf src dst tr hops)).foldl addEdge state.2
    (nm2, em2)

/-- The whole graph-building effect: source and destination are entered
first (destination second, so it wins when the two coincide), then
every observation is folded in. -/
def buildGraph (trs : List TraceroutePacket) (src dst : Nat) :
    List (Nat × GraphNode) × List ((Nat × Nat) × GraphEdge) :=
  trs.foldl (graphStep trs src dst)
    (mapSet dst ⟨dst, .destination, trs.length⟩
      (mapSet src ⟨src, .source, trs.length⟩ []), [])

/-- The classification every map entry satisfies: destination and
source override everything; otherwise membership in the completed-hop
set decides intermediate versus gateway. -/
def expectedType (trs : List TraceroutePacket) (src dst n : Nat) : NodeType :=
  if n = dst then .destination
  else if n = src then .source
  else nodeTypeFor trs n



theorem mapGet_addNodeIfAbsent (trs : List TraceroutePacket)
    (m : List (Nat × GraphNode)) (n k : Nat) :
    mapGet k (addNodeIfAbsent trs m n) =
      if mapGet n m = none ∧ n = k then some ⟨n, nodeTypeFor trs n, 0⟩
      else mapGet k m := by
  unfold addNodeIfAbsent
  rcases h : mapGet n m with _ | g
  · rw [mapGet_mapSet]
    by_cases hk : n = k
    · rw [if_pos hk, if_pos ⟨rfl, hk⟩]
    · rw [if_neg hk, if_neg (fun hx => hk hx.2)]
  · rw [if_neg (fun hx => Option.noConfusion hx.1)]

theorem mapGet_bumpCount (m : List (Nat × GraphNode)) (n k : Nat) :
    mapGet k (bumpCount m n) =
      if n = k then (mapGet k m).map (fun g => { g with count := g.count + 1 })
      else mapGet k m :=
  mapGet_mapUpdate k n _ m

/-- The shape every nodeMap state keeps through the build: source and
destination are present, and every stored node carries the expected
classification. -/
def NodeInv (trs : List TraceroutePacket) (src dst : Nat)
    (m : List (Nat × GraphNode)) : Prop :=
  mapGet src m ≠ none ∧ mapGet dst m ≠ none ∧
  ∀ n g, mapGet n m = some g → g.nodeType = expectedType trs src dst n

theorem nodeInv_addNodeIfAbsent {trs : List TraceroutePacket} {src dst : Nat}
    {m : List (Nat × GraphNode)} (h : NodeInv trs src dst m) (n : Nat) :
    NodeInv trs src dst (addNodeIfAbsent trs m n) := by
  obtain ⟨hs, hd, ht⟩ := h
  refine ⟨?_, ?_, ?_⟩
  · rw [mapGet_addNodeIfAbsent]
    split
    · exact Option.noConfusion
    · exact hs
  · rw [mapGet_addNodeIfAbsent]
    split
    · exact Option.noConfusion
    · exact hd
  · intro k g hg
    rw [mapGet_addNodeIfAbsent] at hg
    split at hg
    · rename_i hcond
      obtain ⟨habsent, rfl⟩ := hcond
      cases hg
      have hns : n ≠ src := fun hx => hs (hx ▸ habsent)
      have hnd : n ≠ dst := fun hx => hd (hx ▸ habsent)
      simp only [expectedType, if_neg hnd, if_neg hns]
    · exact ht k g hg

theorem nodeInv_bumpCount {trs : List TraceroutePacket} {src dst : Nat}
    {m : List (Nat × GraphNode)} (h : NodeInv trs src dst m) (n : Nat) :
    NodeInv trs src dst (bumpCount m n) := by
  obtain ⟨hs, hd, ht⟩ := h
  refine ⟨?_, ?_, ?_⟩
  · rw [mapGet_bumpCount]
    split
    · intro hx
      rcases hget : mapGet src m with _ | g
      · exact hs hget
      · rw [hget] at hx; exact Option.noConfusion hx
    · exact hs
  · rw [mapGet_bumpCount]
    split
    · intro hx
      rcases hget : mapGet dst m with _ | g
      · exact hd hget
      · rw [hget] at hx; exact Option.noConfusion hx
    · exact hd
  · intro k g hg
    rw [mapGet_bumpCount] at hg
    split at hg
    · rcases hget : mapGet k m with _ | g0
      · rw [hget] at hg; exact Option.noConfusion hg
      · rw [hget] at hg
        cases hg
        exact ht k g0 hget
    · exact ht k g hg

theorem nodeInv_hopsFold {trs : List TraceroutePacket} {src dst : Nat} :
    ∀ (hops : List Nat) {m : List (Nat × GraphNode)}, NodeInv trs src dst m →
      NodeInv trs src dst
        (hops.foldl (fun m n => bumpCount (addNodeIfAbsent trs m n) n) m) := by
  intro hops
  induction hops with
  | nil => intro m h; exact h
  | cons n t ih =>
    intro m h
    exact ih (nodeInv_bumpCount (nodeInv_addNodeIfAbsent h n) n)

theorem nodeInv_graphStep {trs : List TraceroutePacket} {src dst : Nat}
    {state : List (Nat × GraphNode) × List ((Nat × Nat) × GraphEdge)}
    (h : NodeInv trs src dst state.1) (tr : TraceroutePacket) :
    NodeInv trs src dst (graphStep trs src dst state tr).1 := by
  unfold graphStep
  rcases tr.route with _ | hops
  · exact h
  · exact nodeInv_hopsFold hops
      (nodeInv_bumpCount (nodeInv_addNodeIfAbsent h tr.gateway_node_id)
        tr.gateway_node_id)

theorem nodeInv_buildGraph (trs : List TraceroutePacket) (src dst : Nat)
    (hne : src ≠ dst) : NodeInv trs src dst (buildGraph trs src dst).1 := by
  unfold buildGraph
  have hinit : NodeInv trs src dst
      (mapSet dst ⟨dst, .destination, trs.length⟩
        (mapSet src ⟨src, .source, trs.length⟩ [])) := by
    refine ⟨?_, ?_, ?_⟩
    · rw [mapGet_mapSet, if_neg (fun h => hne h.symm), mapGet_mapSet, if_pos rfl]
      exact Option.noConfusion
    · rw [mapGet_mapSet, if_pos rfl]
      exact Option.noConfusion
    · intro k g hg
      rw [mapGet_mapSet] at hg
      split at hg
      · rename_i hk
        cases hg
        simp only [expectedType, if_pos hk.symm]
      · rw [mapGet_mapSet] at hg
        split at hg
        · rename_i hdk hk
          cases hg
          have : k ≠ dst := fun hx => hdk (hx.symm)
          simp only [expectedType, if_neg this, if_pos hk.symm]
        · simp [mapGet] at hg
  suffices hfold : ∀ (l : List TraceroutePacket)
      (state : List (Nat × GraphNode) × List ((Nat × Nat) × GraphEdge)),
      NodeInv trs src dst state.1 →
      NodeInv trs src dst (l.foldl (graphStep trs src dst) state).1 by
    exact hfold trs _ hinit
  intro l
  induction l with
  | nil => intro state h; exact h
  | cons tr t ih =>
    intro state h
    exact ih _ (nodeInv_graphStep h tr)

theorem nodesStep_mono {trs : List TraceroutePacket} {n : Nat}
    (m : List (Nat × GraphNode)) (x : Nat) (hm : mapGet n m ≠ none) :
    mapGet n (bumpCount (addNodeIfAbsent trs m x) x) ≠ none := by
  rw [mapGet_bumpCount, mapGet_addNodeIfAbsent]
  split
  · split
    · exact Option.noConfusion
    · rcases hget : mapGet n m with _ | g
      · exact absurd hget hm
      · exact fun hx => Option.noConfusion hx
  · split
    · exact Option.noConfusion
    · exact hm

theorem nodesStep_self (trs : List TraceroutePacket)
    (m : List (Nat × GraphNode)) (n : Nat) :
    mapGet n (bumpCount (addNodeIfAbsent trs m n) n) ≠ none := by
  rw [mapGet_bumpCount, if_pos rfl, mapGet_addNodeIfAbsent]
  split
  · exact fun hx => Option.noConfusion hx
  · rename_i hcond
    rcases hget : mapGet n m with _ | g
    · exact absurd ⟨hget, rfl⟩ hcond
    · exact fun hx => Option.noConfusion hx

theorem nodesFold_mono {trs : List TraceroutePacket} {n : Nat} :
    ∀ (l : List Nat) (m : List (Nat × GraphNode)), mapGet n m ≠ none →
      mapGet n (l.foldl (fun m x => bumpCount (addNodeIfAbsent trs m x) x) m) ≠
        none := by
  intro l
  induction l with
  | nil => intro m hm; exact hm
  | cons x t ih => intro m hm; exact ih _ (nodesStep_mono m x hm)

theorem mapGet_graphStep_mono {trs : List TraceroutePacket} {src dst : Nat}
    {state : List (Nat × GraphNode) × List ((Nat × Nat) × GraphEdge)}
    {n : Nat} (h : mapGet n state.1 ≠ none) (tr : TraceroutePacket) :
    mapGet n (graphStep trs src dst state tr).1 ≠ none := by
  unfold graphStep
  rcases tr.route with _ | hops
  · exact h
  · exact nodesFold_mono hops _ (nodesStep_mono state.1 tr.gateway_node_id h)

theorem hop_present_after_step {trs : List TraceroutePacket} {src dst : Nat}
    {state : List (Nat × GraphNode) × List ((Nat × Nat) × GraphEdge)}
    {tr : TraceroutePacket} {hops : List Nat} (hroute : tr.route = some hops)
    {n : Nat} (hn : n ∈ hops) :
    mapGet n (graphStep trs src dst state tr).1 ≠ none := by
  unfold graphStep
  rw [hroute]
  simp only []
  have hfold : ∀ (l : List Nat) (m : List (Nat × GraphNode)), n ∈ l →
      mapGet n (l.foldl (fun m x => bumpCount (addNodeIfAbsent trs m x) x) m) ≠
        none := by
    intro l
    induction l with
    | nil => intro m hm; exact absurd hm (List.not_mem_nil n)
    | cons x t ih =>
      intro m hm
      simp only [List.foldl_cons]
      rcases List.mem_cons.mp hm with rfl | hm
      · exact nodesFold_mono t _ (nodesStep_self trs m n)
      · exact ih _ hm
  exact hfold hops _ hn

theorem foldl_graphStep_mono {trs : List TraceroutePacket} {src dst : Nat}
    {n : Nat} : ∀ (l : List TraceroutePacket)
      (state : List (Nat × GraphNode) × List ((Nat × Nat) × GraphEdge)),
      mapGet n state.1 ≠ none →
      mapGet n (l.foldl (graphStep trs src dst) state).1 ≠ none := by
  intro l
  induction l with
  | nil => intro state h; exact h
  | cons tr t ih =>
    intro state h
    exact ih _ (mapGet_graphStep_mono h tr)

theorem mem_completedHops {trs : List TraceroutePacket} {n : Nat} :
    n ∈ completedHops trs ↔
      ∃ tr ∈ trs, tr.done = true ∧ ∃ hops, tr.route = some hops ∧ n ∈ hops := by
  have haux : ∀ (l : List TraceroutePacket) (s : List Nat),
      n ∈ l.foldl (fun s tr =>
        if tr.done then
          match tr.route with
          | some hops => s ++ hops
          | none => s
        else s) s ↔
      n ∈ s ∨ ∃ tr ∈ l, tr.done = true ∧ ∃ hops, tr.route = some hops ∧ n ∈ hops := by
    intro l
    induction l with
    | nil => simp
    | cons tr t ih =>
      intro s
      simp only [List.foldl_cons]
      rw [ih]
      by_cases hdone : tr.done = true
      case neg =>
        rw [if_neg hdone]
        constructor
        · rintro (hs | hrest)
          · exact Or.inl hs
          · obtain ⟨tr2, h1, h2⟩ := hrest
            exact Or.inr ⟨tr2, List.mem_cons_of_mem _ h1, h2⟩
        · rintro (hs | ⟨tr2, h1, h2⟩)
          · exact Or.inl hs
          · rcases List.mem_cons.mp h1 with rfl | h1
            · exact absurd h2.1 hdone
            · exact Or.inr ⟨tr2, h1, h2⟩
      case pos =>
        rw [if_pos hdone]
        rcases hroute : tr.route with _ | hops
        · constructor
          · rintro (hs | hrest)
            · exact Or.inl hs
            · obtain ⟨tr2, h1, h2⟩ := hrest
              exact Or.inr ⟨tr2, List.mem_cons_of_mem _ h1, h2⟩
          · rintro (hs | ⟨tr2, h1, h2⟩)
            · exact Or.inl hs
            · rcases List.mem_cons.mp h1 with rfl | h1
              · obtain ⟨_, hops, hr, _⟩ := h2
                rw [hroute] at hr; exact Option.noConfusion hr
              · exact Or.inr ⟨tr2, h1, h2⟩
        · rw [List.mem_append]
          constructor
          · rintro ((hs | hh) | hrest)
            · exact Or.inl hs
            · exact Or.inr ⟨tr, List.mem_cons_self .., hdone, hops, hroute, hh⟩
            · obtain ⟨tr2, h1, h2⟩ := hrest
              exact Or.inr ⟨tr2, List.mem_cons_of_mem _ h1, h2⟩
          · rintro (hs | ⟨tr2, h1, h2⟩)
            · exact Or.inl (Or.inl hs)
            · rcases List.mem_cons.mp h1 with rfl | h1
              · obtain ⟨_, hops2, hr, hmem⟩ := h2
                rw [hroute] at hr
                cases hr
                exact Or.inl (Or.inr hmem)
              · exact Or.inr ⟨tr2, h1, h2⟩
  rw [completedHops, haux]
  simp

theorem buildGraph_hop_present {trs : List TraceroutePacket} {src dst : Nat}
    {n : Nat} (h : n ∈ completedHops trs) :
    mapGet n (buildGraph trs src dst).1 ≠ none := by
  obtain ⟨tr, htr, _, hops, hroute, hmem⟩ := mem_completedHops.mp h
  unfold buildGraph
  have haux : ∀ (l : List TraceroutePacket)
      (state : List (Nat × GraphNode) × List ((Nat × Nat) × GraphEdge)),
      tr ∈ l → mapGet n (l.foldl (graphStep trs src dst) state).1 ≠ none := by
    intro l
    induction l with
    | nil => intro state htl; exact absurd htl (List.not_mem_nil tr)
    | cons x t ih =>
      intro state htl
      simp only [List.foldl_cons]
      rcases List.mem_cons.mp htl with rfl | htl
      · exact foldl_graphStep_mono t _ (hop_present_after_step hroute hmem)
      · exact ih _ htl
  exact haux trs _ htr

/-- Claim C7: in the built graph (with distinct declared source and
destination), every node identifier appearing as an intermediate hop of
at least one completed observation is classified intermediate; every
stored node other than source and destination that never appears on a
completed route — one appearing only as a reporting gateway or only on
incomplete observations — is classified gateway; and the declared
source and destination are always classified source and destination
respectively, regardless of any other appearances. -/
theorem graph_node_classification (trs : List TraceroutePacket)
    (src dst : Nat) (hne : src ≠ dst) :
    (∀ n, n ∈ completedHops trs → n ≠ src → n ≠ dst →
      ∃ g, mapGet n (buildGraph trs src dst).1 = some g ∧
        g.nodeType = NodeType.intermediate) ∧
    (∀ n g, mapGet n (buildGraph trs src dst).1 = some g →
      n ≠ src → n ≠ dst → n ∉ completedHops trs →
        g.nodeType = NodeType.gateway) ∧
    (∃ g, mapGet src (buildGraph trs src dst).1 = some g ∧
      g.nodeType = NodeType.source) ∧
    (∃ g, mapGet dst (buildGraph trs src dst).1 = some g ∧
      g.nodeType = NodeType.destination) := by
  obtain ⟨hs, hd, ht⟩ := nodeInv_buildGraph trs src dst hne
  refine ⟨?_, ?_, ?_, ?_⟩
  · intro n hmem hns hnd
    rcases hget : mapGet n (buildGraph trs src dst).1 with _ | g
    · exact absurd hget (buildGraph_hop_present hmem)
    · refine ⟨g, rfl, ?_⟩
      rw [ht n g hget]
      simp only [expectedType, if_neg hnd, if_neg hns, nodeTypeFor]
      rw [if_pos (by simp [hmem])]
  · intro n g hget hns hnd hnotmem
    rw [ht n g hget]
    simp only [expectedType, if_neg hnd, if_neg hns, nodeTypeFor]
    rw [if_neg (by simp [hnotmem])]
  · rcases hget : mapGet src (buildGraph trs src dst).1 with _ | g
    · exact absurd hget hs
    · refine ⟨g, rfl, ?_⟩
      rw [ht src g hget]
      simp [expectedType, hne]
  · rcases hget : mapGet dst (buildGraph trs src dst).1 with _ | g
    · exact absurd hget hd
    · refine ⟨g, rfl, ?_⟩
      rw [ht dst g hget]
      simp [expectedType]

/-- Claim C7 witness: the spec §8.9 scenario — source 0x11111111,
destination 0x22222222, two completed observations with hop path
[0x33333333] reported by gateways 0x44444444 and 0x55555555; the hop is
intermediate, both gateways are gateway, and source/destination keep
their roles. -/
theorem graph_node_classification_witness :
    (∃ g, mapGet 0x33333333 (buildGraph
        [⟨0x44444444, true, some [0x33333333]⟩,
         ⟨0x55555555, true, some [0x33333333]⟩] 0x11111111 0x22222222).1 =
        some g ∧ g.nodeType = NodeType.intermediate) ∧
    (∃ g, mapGet 0x44444444 (buildGraph
        [⟨0x44444444, true, some [0x33333333]⟩,
         ⟨0x55555555, true, some [0x33333333]⟩] 0x11111111 0x22222222).1 =
        some g ∧ g.nodeType = NodeType.gateway) := by
  have h := graph_node_classification
    [⟨0x44444444, true, some [0x33333333]⟩,
     ⟨0x55555555, true, some [0x33333333]⟩] 0x11111111 0x22222222 (by decide)
  refine ⟨h.1 0x33333333 (by decide) (by decide) (by decide), ?_⟩
  rcases hget : mapGet 0x44444444 (buildGraph
      [⟨0x44444444, true, some [0x33333333]⟩,
       ⟨0x55555555, true, some [0x33333333]⟩] 0x11111111 0x22222222).1
    with _ | g
  · exact absurd hget (by decide)
  · exact ⟨g, rfl, h.2.1 0x44444444 g hget (by decide) (by decide) (by decide)⟩

/-! ## Layered BFS layout (calculateLayeredLayout,
src/components/TracerouteVisualization.tsx lines 486–542) -/

/-- layers.get(layer) with on-demand creation, then Set.add(id): the
bucket for the layer gains the dequeued node (Set.add is a no-op on a
member, though each node is dequeued exactly once). -/
def bucketAdd (layers : List (Nat × List Nat)) (layer id : Nat) :
    List (Nat × List Nat) :=
  match mapGet layer layers with
  | none => mapSet layer [id] layers
  | some bucket =>
    mapSet layer (if bucket.contains id then bucket else bucket ++ [id]) layers

/-- One outgoing edge examined while processing a dequeued node: an
unvisited target is marked visited, assigned layer + 1, and pushed onto
the queue; a visited target is skipped.  The state is
(visited, nodeToLayer, queue). -/
def scanStep (layer : Nat)
    (st : Finset Nat × List (Nat × Nat) × List (Nat × Nat))
    (e : GraphEdge) : Finset Nat × List (Nat × Nat) × List (Nat × Nat) :=
  if e.eto ∈ st.1 then st
  else (insert e.eto st.1, mapSet e.eto (layer + 1) st.2.1,
    st.2.2 ++ [(e.eto, layer + 1)])

/-- Complete characterization of folding scanStep over an edge list:
the fold visits a duplicate-free list of fresh targets, appends exactly
those to the queue at layer + 1, assigns exactly those in nodeToLayer,
and afterwards every target of the list is visited. -/
theorem scanFold_full (layer : Nat) :
    ∀ (L : List GraphEdge) (v : Finset Nat) (n q : List (Nat × Nat)),
    ∃ fresh : List Nat,
      (L.foldl (scanStep layer) (v, n, q)).1 = v ∪ fresh.toFinset ∧
      fresh.Nodup ∧
      (∀ x ∈ fresh, x ∉ v ∧ x ∈ L.map (·.eto)) ∧
      (L.foldl (scanStep layer) (v, n, q)).2.2 =
        q ++ fresh.map (fun t => (t, layer + 1)) ∧
      (∀ u, mapGet u (L.foldl (scanStep layer) (v, n, q)).2.1 =
        if u ∈ fresh then some (layer + 1) else mapGet u n) ∧
      (∀ e ∈ L, e.eto ∈ v ∪ fresh.toFinset) := by
  intro L
  induction L with
  | nil =>
    intro v n q
    exact ⟨[], by simp, List.nodup_nil, by simp, by simp, by simp, by simp⟩
  | cons e t ih =>
    intro v n q
    simp only [List.foldl_cons]
    by_cases hmem : e.eto ∈ v
    · have hstep : scanStep layer (v, n, q) e = (v, n, q) := by
        simp [scanStep, hmem]
      rw [hstep]
      obtain ⟨fresh, h1, h2, h3, h4, h5, h6⟩ := ih v n q
      refine ⟨fresh, h1, h2, ?_, h4, h5, ?_⟩
      · intro x hx
        exact ⟨(h3 x hx).1, by simp only [List.map_cons, List.mem_cons]
                               exact Or.inr (h3 x hx).2⟩
      · intro e2 he2
        rcases List.mem_cons.mp he2 with rfl | he2
        · exact Finset.mem_union_left _ hmem
        · exact h6 e2 he2
    · have hstep : scanStep layer (v, n, q) e =
          (insert e.eto v, mapSet e.eto (layer + 1) n,
            q ++ [(e.eto, layer + 1)]) := by
        simp [scanStep, hmem]
      rw [hstep]
      obtain ⟨fresh, h1, h2, h3, h4, h5, h6⟩ :=
        ih (insert e.eto v) (mapSet e.eto (layer + 1) n) (q ++ [(e.eto, layer + 1)])
      have hfresh_ne : e.eto ∉ fresh := by
        intro hx
        exact (h3 e.eto hx).1 (Finset.mem_insert_self ..)
      have hsets : insert e.eto v ∪ fresh.toFinset =
          v ∪ (e.eto :: fresh).toFinset := by
        ext x
        simp only [Finset.mem_union, Finset.mem_insert, List.toFinset_cons,
          List.mem_toFinset]
        tauto
      refine ⟨e.eto :: fresh, ?_, ?_, ?_, ?_, ?_, ?_⟩
      · rw [h1, hsets]
      · exact List.nodup_cons.mpr ⟨hfresh_ne, h2⟩
      · intro x hx
        rcases List.mem_cons.mp hx with rfl | hx
        · exact ⟨hmem, by simp⟩
        · exact ⟨fun hv => (h3 x hx).1 (Finset.mem_insert_of_mem hv),
            by simp only [List.map_cons, List.mem_cons]
               exact Or.inr (h3 x hx).2⟩
      · rw [h4]
        simp
      · intro u
        rw [h5 u, mapGet_mapSet]
        by_cases hu : u ∈ fresh
        · rw [if_pos hu, if_pos (by simp [hu])]
        · rw [if_neg hu]
          by_cases hue : u = e.eto
          · rw [if_pos (hue ▸ rfl), if_pos (by simp [hue])]
          · rw [if_neg (fun hx => hue hx.symm), if_neg
              (by simp only [List.mem_cons]; exact fun hx => hx.elim hue hu)]
      · intro e2 he2
        rcases List.mem_cons.mp he2 with rfl | he2
        · refine Finset.mem_union_right _ ?_
          simp
        · have h := h6 e2 he2
          rwa [hsets] at h

/-- The BFS while-loop of calculateLayeredLayout.  queue.shift() pops
the front pair (id, layer); the dequeued node is added to its layer's
bucket; the outgoing edges edges.filter(e => e.from === id) are scanned
in edge-list order, marking unvisited targets visited at layer + 1 and
pushing them.  univ is any superset of the visited set and of the edge
targets; it bounds the number of possible enqueues, which proves the
loop terminates (the JS loop terminates for the same reason).  The
result is the (nodeToLayer, layers) pair that the positioning code then
reads. -/
def bfsLoop (edges : List GraphEdge) (univ : Finset Nat)
    (queue : List (Nat × Nat)) (visited : Finset Nat)
    (ntl : List (Nat × Nat)) (layers : List (Nat × List Nat))
    (hE : ∀ e ∈ edges, e.eto ∈ univ) (hV : visited ⊆ univ) :
    List (Nat × Nat) × List (Nat × List Nat) :=
  match queue with
  | [] => (ntl, layers)
  | (id, layer) :: rest =>
    bfsLoop edges univ
      ((edges.filter (fun e => e.efrom == id)).foldl (scanStep layer)
        (visited, ntl, rest)).2.2
      ((edges.filter (fun e => e.efrom == id)).foldl (scanStep layer)
        (visited, ntl, rest)).1
      ((edges.filter (fun e => e.efrom == id)).foldl (scanStep layer)
        (visited, ntl, rest)).2.1
      (bucketAdd layers layer id) hE
      (by
        obtain ⟨fresh, h1, _, h3, _, _, _⟩ :=
          scanFold_full layer (edges.filter (fun e => e.efrom == id))
            visited ntl rest
        rw [h1]
        refine Finset.union_subset hV ?_
        intro x hx
        rw [List.mem_toFinset] at hx
        obtain ⟨_, hmap⟩ := h3 x hx
        obtain ⟨e, he, heq⟩ := List.mem_map.mp hmap
        exact heq ▸ hE e (List.mem_of_mem_filter he))
termination_by (univ \ visited).card * 2 + queue.length
decreasing_by
  obtain ⟨fresh, h1, h2, h3, h4, _, _⟩ :=
    scanFold_full layer (edges.filter (fun e => e.efrom == id))
      visited ntl rest
  rw [h1, h4]
  have hsub : fresh.toFinset ⊆ univ \ visited := by
    intro x hx
    rw [List.mem_toFinset] at hx
    obtain ⟨hnv, hmap⟩ := h3 x hx
    obtain ⟨e, he, heq⟩ := List.mem_map.mp hmap
    exact Finset.mem_sdiff.mpr ⟨heq ▸ hE e (List.mem_of_mem_filter he), hnv⟩
  have hcard : fresh.toFinset.card = fresh.length := List.toFinset_card_of_nodup h2
  have hdiff : univ \ (visited ∪ fresh.toFinset) = (univ \ visited) \ fresh.toFinset := by
    ext x
    simp only [Finset.mem_sdiff, Finset.mem_union]
    tauto
  have hdcard : ((univ \ visited) \ fresh.toFinset).card =
      (univ \ visited).card - fresh.toFinset.card := Finset.card_sdiff hsub
  have hle : fresh.toFinset.card ≤ (univ \ visited).card :=
    Finset.card_le_card hsub
  rw [hdiff, hdcard]
  simp only [List.length_append, List.length_map, List.length_cons]
  omega

/-- The visited / target universe used to bound the BFS. -/
def bfsUniv (edges : List GraphEdge) (source : Nat) : Finset Nat :=
  edges.foldl (fun s e => insert e.eto s) {source}

theorem mem_bfsUniv_target (edges : List GraphEdge) (source : Nat) :
    ∀ e ∈ edges, e.eto ∈ bfsUniv edges source := by
  have haux : ∀ (l : List GraphEdge) (s : Finset Nat),
      (∀ e ∈ l, e.eto ∈ l.foldl (fun s e => insert e.eto s) s) ∧
      s ⊆ l.foldl (fun s e => insert e.eto s) s := by
    intro l
    induction l with
    | nil => intro s; exact ⟨by simp, fun x hx => hx⟩
    | cons e t ih =>
      intro s
      constructor
      · intro e2 he2
        rcases List.mem_cons.mp he2 with rfl | he2
        · exact (ih (insert e2.eto s)).2 (Finset.mem_insert_self ..)
        · exact (ih (insert e.eto s)).1 e2 he2
      · intro x hx
        exact (ih (insert e.eto s)).2 (Finset.mem_insert_of_mem hx)
  exact (haux edges {source}).1

theorem source_mem_bfsUniv (edges : List GraphEdge) (source : Nat) :
    {source} ⊆ bfsUniv edges source := by
  have haux : ∀ (l : List GraphEdge) (s : Finset Nat),
      s ⊆ l.foldl (fun s e => insert e.eto s) s := by
    intro l
    induction l with
    | nil => exact fun s x hx => hx
    | cons e t ih =>
      intro s x hx
      exact ih (insert e.eto s) (Finset.mem_insert_of_mem hx)
  exact haux edges {source}

/-- The whole BFS pass: source enqueued at layer 0, pre-visited and
pre-assigned. -/
def bfsRun (edges : List GraphEdge) (source : Nat) :
    List (Nat × Nat) × List (Nat × List Nat) :=
  bfsLoop edges (bfsUniv edges source) [(source, 0)] {source}
    [(source, 0)] [] (mem_bfsUniv_target edges source)
    (source_mem_bfsUniv edges source)

/-- The numeric key sort (a, b) => a - b. -/
def natSortLe (a b : Nat) : Bool := decide ((a : Int) - (b : Int) ≤ 0)

/-- The positioning pass: layer keys ascending; within a layer, nodes
in discovery order; x = 100 + layerIdx·200, y = 100 + idx·100.  Each
output entry is (node id, x, y). -/
def layoutResult (edges : List GraphEdge) (source : Nat) :
    List (List (Nat × Nat × Nat)) :=
  (jsSortBy natSortLe ((bfsRun edges source).2.map Prod.fst)).enum.map
    (fun li => ((mapGet li.2 (bfsRun edges source).2).getD []).enum.map
      (fun ni => (ni.2, 100 + li.1 * 200, 100 + ni.1 * 100)))

/-- One directed edge step of the built graph. -/
def EdgeStep (edges : List GraphEdge) (a b : Nat) : Prop :=
  ∃ e ∈ edges, e.efrom = a ∧ e.eto = b

/-- A directed walk of the given length from src. -/
inductive Walk (edges : List GraphEdge) (src : Nat) : Nat → Nat → Prop where
  | refl : Walk edges src src 0
  | step {u v n} : Walk edges src u n → EdgeStep edges u v →
      Walk edges src v (n + 1)

theorem mapFst_pairs (l : List Nat) (c : Nat) :
    (l.map (fun t => (t, c))).map Prod.fst = l := by
  induction l with
  | nil => rfl
  | cons x t ih => simp [ih]

theorem mapSnd_pairs (l : List Nat) (c : Nat) :
    (l.map (fun t => (t, c))).map Prod.snd = List.replicate l.length c := by
  induction l with
  | nil => rfl
  | cons x t ih => simp [ih, List.replicate_succ]

theorem bucketAdd_eq_none {layers : List (Nat × List Nat)} {L : Nat}
    (id : Nat) (hL : mapGet L layers = none) :
    bucketAdd layers L id = mapSet L [id] layers := by
  unfold bucketAdd
  rw [hL]

theorem bucketAdd_eq_some {layers : List (Nat × List Nat)} {L : Nat}
    (id : Nat) {bucket : List Nat} (hL : mapGet L layers = some bucket) :
    bucketAdd layers L id =
      mapSet L (if bucket.contains id then bucket else bucket ++ [id]) layers := by
  unfold bucketAdd
  rw [hL]

theorem mem_if_bucket {bucket : List Nat} {id u : Nat} :
    u ∈ (if bucket.contains id then bucket else bucket ++ [id]) ↔
      u ∈ bucket ∨ u = id := by
  split
  · rename_i hcont
    constructor
    · exact Or.inl
    · rintro (h | rfl)
      · exact h
      · exact (by simpa using hcont)
  · rw [List.mem_append, List.mem_singleton]

theorem bucketAdd_mem (layers : List (Nat × List Nat)) (L id u : Nat) :
    (∃ k b, mapGet k (bucketAdd layers L id) = some b ∧ u ∈ b) ↔
      (∃ k b, mapGet k layers = some b ∧ u ∈ b) ∨ u = id := by
  rcases hL : mapGet L layers with _ | bucket
  · rw [bucketAdd_eq_none id hL]
    constructor
    · rintro ⟨k, b, hk, hu⟩
      rw [mapGet_mapSet] at hk
      split at hk
      · cases hk
        exact Or.inr (List.mem_singleton.mp hu)
      · exact Or.inl ⟨k, b, hk, hu⟩
    · rintro (⟨k, b, hk, hu⟩ | rfl)
      · refine ⟨k, b, ?_, hu⟩
        rw [mapGet_mapSet]
        rw [if_neg (fun hx : L = k => by rw [← hx, hL] at hk; cases hk)]
        exact hk
      · exact ⟨L, [u], by rw [mapGet_mapSet, if_pos rfl],
          List.mem_singleton.mpr rfl⟩
  · rw [bucketAdd_eq_some id hL]
    constructor
    · rintro ⟨k, b, hk, hu⟩
      rw [mapGet_mapSet] at hk
      split at hk
      · cases hk
        rcases mem_if_bucket.mp hu with hub | rfl
        · exact Or.inl ⟨L, bucket, hL, hub⟩
        · exact Or.inr rfl
      · exact Or.inl ⟨k, b, hk, hu⟩
    · rintro (⟨k, b, hk, hu⟩ | rfl)
      · by_cases hLk : L = k
        · subst hLk
          rw [hL] at hk
          cases hk
          exact ⟨L, _, by rw [mapGet_mapSet, if_pos rfl],
            mem_if_bucket.mpr (Or.inl hu)⟩
        · refine ⟨k, b, ?_, hu⟩
          rw [mapGet_mapSet, if_neg hLk]
          exact hk
      · exact ⟨L, _, by rw [mapGet_mapSet, if_pos rfl],
          mem_if_bucket.mpr (Or.inr rfl)⟩

theorem bucketAdd_layer_mem (layers : List (Nat × List Nat)) (L id k : Nat)
    (b : List Nat) (h : mapGet k (bucketAdd layers L id) = some b) :
    ∀ u ∈ b, (∃ b0, mapGet k layers = some b0 ∧ u ∈ b0) ∨ (u = id ∧ k = L) := by
  intro u hu
  rcases hL : mapGet L layers with _ | bucket
  · rw [bucketAdd_eq_none id hL, mapGet_mapSet] at h
    split at h
    · rename_i hLk
      cases h
      exact Or.inr ⟨List.mem_singleton.mp hu, hLk.symm⟩
    · exact Or.inl ⟨b, h, hu⟩
  · rw [bucketAdd_eq_some id hL, mapGet_mapSet] at h
    split at h
    · rename_i hLk
      cases h
      rcases mem_if_bucket.mp hu with hub | rfl
      · exact Or.inl ⟨bucket, hLk ▸ hL, hub⟩
      · exact Or.inr ⟨rfl, hLk.symm⟩
    · exact Or.inl ⟨b, h, hu⟩

/-- The queue-shape bookkeeping of one BFS step: in
`(id, layer) :: rest`, every queued layer lies between the head's layer
and the head's layer + 1, and appending k entries at layer + 1 keeps the
two-level shape. -/
theorem shape_step {id layer : Nat} {rest : List (Nat × Nat)} {f a b : Nat}
    (h : (((id, layer) :: rest).map Prod.snd) =
      List.replicate a f ++ List.replicate b (f + 1)) (k : Nat) :
    (∀ p ∈ rest, layer ≤ p.2 ∧ p.2 ≤ layer + 1) ∧
    ∃ f' a' b', (rest.map Prod.snd ++ List.replicate k (layer + 1)) =
      List.replicate a' f' ++ List.replicate b' (f' + 1) := by
  simp only [List.map_cons] at h
  rcases a with _ | a'
  · simp only [List.replicate, List.nil_append] at h
    rcases b with _ | b'
    · simp at h
    · rw [List.replicate_succ] at h
      injection h with h1 h2
      subst h1
      constructor
      · intro p hp
        have : p.2 ∈ rest.map Prod.snd := List.mem_map.mpr ⟨p, hp, rfl⟩
        rw [h2] at this
        have := List.eq_of_mem_replicate this
        omega
      · refine ⟨f + 1, b', k, ?_⟩
        rw [h2]
  · rw [List.replicate_succ, List.cons_append] at h
    injection h with h1 h2
    subst h1
    constructor
    · intro p hp
      have hmem : p.2 ∈ rest.map Prod.snd := List.mem_map.mpr ⟨p, hp, rfl⟩
      rw [h2] at hmem
      rcases List.mem_append.mp hmem with hm | hm
      · have := List.eq_of_mem_replicate hm
        omega
      · have := List.eq_of_mem_replicate hm
        omega
    · refine ⟨layer, a', b + k, ?_⟩
      rw [h2, List.append_assoc, ← List.replicate_add]

/-- The invariant the BFS loop maintains; src is the traversal root. -/
structure BfsInv (edges : List GraphEdge) (src : Nat)
    (queue : List (Nat × Nat)) (visited : Finset Nat)
    (ntl : List (Nat × Nat)) (layers : List (Nat × List Nat)) : Prop where
  qvis : ∀ p ∈ queue, p.1 ∈ visited ∧ mapGet p.1 ntl = some p.2
  dom : ∀ u, mapGet u ntl ≠ none ↔ u ∈ visited
  sound : ∀ u l, mapGet u ntl = some l → Walk edges src u l
  shape : ∃ f a b, queue.map Prod.snd =
    List.replicate a f ++ List.replicate b (f + 1)
  bound : ∀ u l, mapGet u ntl = some l → ∀ p ∈ queue, l ≤ p.2 + 1
  closure : ∀ u, u ∈ visited → u ∉ queue.map Prod.fst →
    ∀ e ∈ edges, e.efrom = u →
      ∃ lu lt, mapGet u ntl = some lu ∧ mapGet e.eto ntl = some lt ∧
        lt ≤ lu + 1
  qnodup : (queue.map Prod.fst).Nodup
  src0 : mapGet src ntl = some 0
  buckets : ∀ u, (∃ k b, mapGet k layers = some b ∧ u ∈ b) ↔
    (u ∈ visited ∧ u ∉ queue.map Prod.fst)
  bucketLayer : ∀ k b, mapGet k layers = some b → ∀ u ∈ b,
    mapGet u ntl = some k

/-- One dequeue step preserves the BFS invariant. -/
theorem bfsInv_step (edges : List GraphEdge) (src id layer : Nat)
    (rest : List (Nat × Nat)) (visited : Finset Nat)
    (ntl : List (Nat × Nat)) (layers : List (Nat × List Nat))
    (hinv : BfsInv edges src ((id, layer) :: rest) visited ntl layers) :
    BfsInv edges src
      (((edges.filter (fun e => e.efrom == id)).foldl (scanStep layer)
        (visited, ntl, rest)).2.2)
      (((edges.filter (fun e => e.efrom == id)).foldl (scanStep layer)
        (visited, ntl, rest)).1)
      (((edges.filter (fun e => e.efrom == id)).foldl (scanStep layer)
        (visited, ntl, rest)).2.1)
      (bucketAdd layers layer id) := by
  obtain ⟨fresh, h1, h2, h3, h4, h5, h6⟩ :=
    scanFold_full layer (edges.filter (fun e => e.efrom == id)) visited ntl rest
  have hhead := hinv.qvis (id, layer) (List.mem_cons_self ..)
  have hidv : id ∈ visited := hhead.1
  have hidl : mapGet id ntl = some layer := hhead.2
  have hv_not_fresh : ∀ x, x ∈ visited → x ∉ fresh :=
    fun x hxv hxf => (h3 x hxf).1 hxv
  have hfresh_step : ∀ x ∈ fresh, EdgeStep edges id x := by
    intro x hx
    obtain ⟨e, he, heq⟩ := List.mem_map.mp (h3 x hx).2
    refine ⟨e, List.mem_of_mem_filter he, ?_, heq⟩
    have hpred := List.of_mem_filter he
    simpa using hpred
  have hall_le : ∀ u l, mapGet u ntl = some l → l ≤ layer + 1 :=
    fun u l hul => hinv.bound u l hul (id, layer) (List.mem_cons_self ..)
  obtain ⟨f, a, b, hsh⟩ := hinv.shape
  obtain ⟨hrest_bounds, hshape'⟩ := shape_step hsh fresh.length
  have hidnotrest : id ∉ rest.map Prod.fst := by
    have hnd := hinv.qnodup
    simp only [List.map_cons] at hnd
    exact (List.nodup_cons.mp hnd).1
  have hrestv : ∀ x ∈ rest.map Prod.fst, x ∈ visited := by
    intro x hx
    obtain ⟨p, hp, rfl⟩ := List.mem_map.mp hx
    exact (hinv.qvis p (List.mem_cons_of_mem _ hp)).1
  refine ⟨?_, ?_, ?_, ?_, ?_, ?_, ?_, ?_, ?_, ?_⟩
  · -- qvis
    intro p hp
    rw [h4] at hp
    rcases List.mem_append.mp hp with hp | hp
    · have hold := hinv.qvis p (List.mem_cons_of_mem _ hp)
      refine ⟨?_, ?_⟩
      · rw [h1]; exact Finset.mem_union_left _ hold.1
      · rw [h5 p.1, if_neg (hv_not_fresh p.1 hold.1)]; exact hold.2
    · obtain ⟨t, ht, rfl⟩ := List.mem_map.mp hp
      refine ⟨?_, ?_⟩
      · rw [h1]; exact Finset.mem_union_right _ (List.mem_toFinset.mpr ht)
      · rw [h5 t, if_pos ht]
  · -- dom
    intro u
    rw [h5 u, h1]
    by_cases hu : u ∈ fresh
    · rw [if_pos hu]
      constructor
      · intro _; exact Finset.mem_union_right _ (List.mem_toFinset.mpr hu)
      · intro _; exact fun hx => Option.noConfusion hx
    · rw [if_neg hu]
      rw [hinv.dom u]
      constructor
      · exact Finset.mem_union_left _
      · intro hx
        rcases Finset.mem_union.mp hx with hx | hx
        · exact hx
        · exact absurd (List.mem_toFinset.mp hx) hu
  · -- sound
    intro u l hul
    rw [h5 u] at hul
    split at hul
    · rename_i hu
      cases hul
      exact Walk.step (hinv.sound id layer hidl) (hfresh_step u hu)
    · exact hinv.sound u l hul
  · -- shape
    rw [h4, List.map_append, mapSnd_pairs]
    exact hshape'
  · -- bound
    intro u l hul p hp
    rw [h4] at hp
    rw [h5 u] at hul
    rcases List.mem_append.mp hp with hp | hp
    · have hb := (hrest_bounds p hp).1
      split at hul
      · cases hul; omega
      · exact hinv.bound u l hul p (List.mem_cons_of_mem _ hp)
    · obtain ⟨t, ht, rfl⟩ := List.mem_map.mp hp
      split at hul
      · cases hul; omega
      · have := hall_le u l hul; omega
  · -- closure
    intro u hu hnq e he hef
    rw [h4, List.map_append, mapFst_pairs] at hnq
    simp only [List.mem_append] at hnq
    push_neg at hnq
    rw [h1] at hu
    rcases Finset.mem_union.mp hu with hu | hu
    swap
    · exact absurd (List.mem_toFinset.mp hu) hnq.2
    · by_cases hui : u = id
      · subst hui
        have hfilter : e ∈ edges.filter (fun e => e.efrom == u) :=
          List.mem_filter.mpr ⟨he, by simp [hef]⟩
        have htarget := h6 e hfilter
        have hntl'u : mapGet u (((edges.filter (fun e => e.efrom == u)).foldl
            (scanStep layer) (visited, ntl, rest)).2.1) = some layer := by
          rw [h5 u, if_neg (hv_not_fresh u hidv)]
          exact hidl
        rcases Finset.mem_union.mp htarget with htv | htf
        · have hdomne := (hinv.dom e.eto).mpr htv
          rcases hget : mapGet e.eto ntl with _ | lt
          · exact absurd hget hdomne
          · refine ⟨layer, lt, hntl'u, ?_, hall_le e.eto lt hget⟩
            rw [h5 e.eto, if_neg (hv_not_fresh _ htv)]
            exact hget
        · have htf' := List.mem_toFinset.mp htf
          refine ⟨layer, layer + 1, hntl'u, ?_, le_refl _⟩
          rw [h5 e.eto, if_pos htf']
      · have hold := hinv.closure u hu
          (by simp only [List.map_cons, List.mem_cons]
              push_neg
              exact ⟨hui, hnq.1⟩) e he hef
        obtain ⟨lu, lt, hlu, hlt, hle⟩ := hold
        have hetov : e.eto ∈ visited := (hinv.dom e.eto).mp
          (by rw [hlt]; exact fun hx => Option.noConfusion hx)
        refine ⟨lu, lt, ?_, ?_, hle⟩
        · rw [h5 u, if_neg (hv_not_fresh u hu)]; exact hlu
        · rw [h5 e.eto, if_neg (hv_not_fresh _ hetov)]; exact hlt
  · -- qnodup
    rw [h4, List.map_append, mapFst_pairs]
    refine List.Nodup.append ?_ h2 ?_
    · have hnd := hinv.qnodup
      simp only [List.map_cons] at hnd
      exact (List.nodup_cons.mp hnd).2
    · exact List.disjoint_left.mpr
        (fun x hx => hv_not_fresh x (hrestv x hx))
  · -- src0
    have hsrcv : src ∈ visited := (hinv.dom src).mp
      (by rw [hinv.src0]; exact fun hx => Option.noConfusion hx)
    rw [h5 src, if_neg (hv_not_fresh src hsrcv)]
    exact hinv.src0
  · -- buckets
    intro u
    rw [bucketAdd_mem]
    constructor
    · rintro (hold | rfl)
      · rw [hinv.buckets u] at hold
        obtain ⟨huv, hnq⟩ := hold
        simp only [List.map_cons, List.mem_cons] at hnq
        push_neg at hnq
        refine ⟨by rw [h1]; exact Finset.mem_union_left _ huv, ?_⟩
        rw [h4, List.map_append, mapFst_pairs]
        simp only [List.mem_append]
        push_neg
        exact ⟨hnq.2, hv_not_fresh u huv⟩
      · refine ⟨by rw [h1]; exact Finset.mem_union_left _ hidv, ?_⟩
        rw [h4, List.map_append, mapFst_pairs]
        simp only [List.mem_append]
        push_neg
        exact ⟨hidnotrest, hv_not_fresh _ hidv⟩
    · rintro ⟨hv', hnq⟩
      rw [h4, List.map_append, mapFst_pairs] at hnq
      simp only [List.mem_append] at hnq
      push_neg at hnq
      rw [h1] at hv'
      rcases Finset.mem_union.mp hv' with huv | huf
      · by_cases hui : u = id
        · exact Or.inr hui
        · refine Or.inl ?_
          rw [hinv.buckets u]
          refine ⟨huv, ?_⟩
          simp only [List.map_cons, List.mem_cons]
          push_neg
          exact ⟨hui, hnq.1⟩
      · exact absurd (List.mem_toFinset.mp huf) hnq.2
  · -- bucketLayer
    intro k bb hkb u hub
    rcases bucketAdd_layer_mem layers layer id k bb hkb u hub with
      ⟨b0, hb0, hub0⟩ | ⟨rfl, rfl⟩
    · have hold := hinv.bucketLayer k b0 hb0 u hub0
      have huv : u ∈ visited := (hinv.dom u).mp
        (by rw [hold]; exact fun hx => Option.noConfusion hx)
      rw [h5 u, if_neg (hv_not_fresh u huv)]
      exact hold
    · rw [h5 u, if_neg (hv_not_fresh u hidv)]
      exact hidl

/-- The invariant holds for the initial BFS state. -/
theorem bfsInv_init (edges : List GraphEdge) (source : Nat) :
    BfsInv edges source [(source, 0)] {source} [(source, 0)] [] := by
  refine ⟨?_, ?_, ?_, ?_, ?_, ?_, ?_, ?_, ?_, ?_⟩
  · intro p hp
    rcases List.mem_singleton.mp hp with rfl
    exact ⟨Finset.mem_singleton_self _, by simp [mapGet]⟩
  · intro u
    simp only [mapGet, Finset.mem_singleton]
    by_cases h : source = u
    · simp [h]
    · simp [h]
      exact fun hx => h hx.symm
  · intro u l hul
    simp only [mapGet] at hul
    split at hul
    · rename_i hsu
      cases hul
      cases hsu
      exact Walk.refl
    · exact absurd hul (by simp)
  · exact ⟨0, 1, 0, rfl⟩
  · intro u l hul p hp
    rcases List.mem_singleton.mp hp with rfl
    simp only [mapGet] at hul
    split at hul
    · cases hul; omega
    · exact absurd hul (by simp)
  · intro u hu hnq e he hef
    rw [Finset.mem_singleton] at hu
    subst hu
    exact absurd (by simp : u ∈ ([(u, 0)].map Prod.fst)) hnq
  · simp
  · simp [mapGet]
  · intro u
    constructor
    · rintro ⟨k, bb, hk, _⟩
      simp [mapGet] at hk
    · rintro ⟨hu, hnq⟩
      rw [Finset.mem_singleton] at hu
      subst hu
      exact absurd (by simp : u ∈ ([(u, 0)].map Prod.fst)) hnq
  · intro k bb hk
    simp [mapGet] at hk

/-- Every fact the final claim needs, established for every state that
satisfies the invariant, by strong induction on the termination
measure: the result's layer assignment is sound for walks, satisfies
the edge-relaxation inequality, assigns the source layer 0, its buckets
cover exactly the assigned nodes, and bucket keys agree with assigned
layers. -/
theorem bfsLoop_spec (edges : List GraphEdge) (univ : Finset Nat) (src : Nat)
    (hE : ∀ e ∈ edges, e.eto ∈ univ) :
    ∀ (meas : Nat) (queue : List (Nat × Nat)) (visited : Finset Nat)
      (ntl : List (Nat × Nat)) (layers : List (Nat × List Nat))
      (hV : visited ⊆ univ),
      (univ \ visited).card * 2 + queue.length = meas →
      BfsInv edges src queue visited ntl layers →
      ((∀ u l, mapGet u (bfsLoop edges univ queue visited ntl layers hE hV).1 =
          some l → Walk edges src u l) ∧
       (∀ u l, mapGet u (bfsLoop edges univ queue visited ntl layers hE hV).1 =
          some l → ∀ e ∈ edges, e.efrom = u →
          ∃ lt, mapGet e.eto
            (bfsLoop edges univ queue visited ntl layers hE hV).1 =
            some lt ∧ lt ≤ l + 1) ∧
       mapGet src (bfsLoop edges univ queue visited ntl layers hE hV).1 =
         some 0 ∧
       (∀ u, (∃ k bb, mapGet k
            (bfsLoop edges univ queue visited ntl layers hE hV).2 =
            some bb ∧ u ∈ bb) ↔
          mapGet u (bfsLoop edges univ queue visited ntl layers hE hV).1 ≠
            none) ∧
       (∀ k bb, mapGet k (bfsLoop edges univ queue visited ntl layers hE hV).2 =
          some bb → ∀ u ∈ bb,
          mapGet u (bfsLoop edges univ queue visited ntl layers hE hV).1 =
            some k)) := by
  intro meas
  induction meas using Nat.strong_induction_on with
  | _ meas ih =>
    intro queue visited ntl layers hV hmeas hinv
    rcases queue with _ | ⟨⟨id, layer⟩, rest⟩
    · have hunfold : bfsLoop edges univ [] visited ntl layers hE hV =
          (ntl, layers) := by
        rw [bfsLoop]
      rw [hunfold]
      refine ⟨hinv.sound, ?_, hinv.src0, ?_, hinv.bucketLayer⟩
      · intro u l hul e he hef
        have huv : u ∈ visited := (hinv.dom u).mp
          (by rw [hul]; exact fun hx => Option.noConfusion hx)
        obtain ⟨lu, lt, hlu, hlt, hle⟩ :=
          hinv.closure u huv (by simp) e he hef
        rw [hul] at hlu
        cases hlu
        exact ⟨lt, hlt, hle⟩
      · intro u
        rw [hinv.buckets u, hinv.dom u]
        simp
    · have hunfold := bfsLoop.eq_def edges univ ((id, layer) :: rest)
        visited ntl layers hE hV
      simp only [] at hunfold
      rw [hunfold]
      obtain ⟨fresh, h1, h2, h3, h4, h5, h6⟩ :=
        scanFold_full layer (edges.filter (fun e => e.efrom == id))
          visited ntl rest
      have hsub : fresh.toFinset ⊆ univ \ visited := by
        intro x hx
        rw [List.mem_toFinset] at hx
        obtain ⟨hnv, hmap⟩ := h3 x hx
        obtain ⟨e, he, heq⟩ := List.mem_map.mp hmap
        exact Finset.mem_sdiff.mpr
          ⟨heq ▸ hE e (List.mem_of_mem_filter he), hnv⟩
      have hcard : fresh.toFinset.card = fresh.length :=
        List.toFinset_card_of_nodup h2
      have hdiff : univ \ (visited ∪ fresh.toFinset) =
          (univ \ visited) \ fresh.toFinset := by
        ext x
        simp only [Finset.mem_sdiff, Finset.mem_union]
        tauto
      have hdcard : ((univ \ visited) \ fresh.toFinset).card =
          (univ \ visited).card - fresh.toFinset.card := Finset.card_sdiff hsub
      have hle : fresh.toFinset.card ≤ (univ \ visited).card :=
        Finset.card_le_card hsub
      have hmeas' : (univ \ ((edges.filter (fun e => e.efrom == id)).foldl
            (scanStep layer) (visited, ntl, rest)).1).card * 2 +
          ((edges.filter (fun e => e.efrom == id)).foldl (scanStep layer)
            (visited, ntl, rest)).2.2.length <
          meas := by
        rw [h1, h4, hdiff, hdcard]
        simp only [List.length_append, List.length_map]
        simp only [List.length_cons] at hmeas
        omega
      exact ih _ hmeas' _ _ _ _ _ rfl
        (bfsInv_step edges src id layer rest visited ntl layers hinv)

theorem mem_keys_iff_mapGet {κ ν : Type} [DecidableEq κ] (k : κ) :
    ∀ (m : List (κ × ν)), k ∈ m.map Prod.fst ↔ ∃ v, mapGet k m = some v := by
  intro m
  induction m with
  | nil => simp [mapGet]
  | cons p rest ih =>
    obtain ⟨k2, v2⟩ := p
    simp only [List.map_cons, List.mem_cons, mapGet]
    by_cases h : k2 = k
    · subst h
      constructor
      · intro _; exact ⟨v2, by rw [if_pos rfl]⟩
      · intro _; exact Or.inl rfl
    · rw [if_neg h]
      constructor
      · rintro (rfl | hk)
        · exact absurd rfl h
        · exact ih.mp hk
      · rintro hv
        exact Or.inr (ih.mpr hv)

/-- Membership in the positioned output equals membership in some layer
bucket of the BFS run. -/
theorem layout_ids_iff (edges : List GraphEdge) (source u : Nat) :
    u ∈ ((layoutResult edges source).flatten.map (fun p => p.1)) ↔
      ∃ k bb, mapGet k (bfsRun edges source).2 = some bb ∧ u ∈ bb := by
  unfold layoutResult
  constructor
  · intro hu
    rw [List.mem_map] at hu
    obtain ⟨p, hp, rfl⟩ := hu
    rw [List.mem_flatten] at hp
    obtain ⟨inner, hinner, hpin⟩ := hp
    rw [List.mem_map] at hinner
    obtain ⟨li, _, rfl⟩ := hinner
    rw [List.mem_map] at hpin
    obtain ⟨ni, hni, rfl⟩ := hpin
    have hnib : ni.2 ∈ (mapGet li.2 (bfsRun edges source).2).getD [] := by
      have hmm : ni.2 ∈
          ((mapGet li.2 (bfsRun edges source).2).getD []).enum.map Prod.snd :=
        List.mem_map.mpr ⟨ni, hni, rfl⟩
      rwa [List.enum_map_snd] at hmm
    rcases hbk : mapGet li.2 (bfsRun edges source).2 with _ | bb
    · rw [hbk] at hnib; simp at hnib
    · rw [hbk] at hnib
      exact ⟨li.2, bb, hbk, hnib⟩
  · rintro ⟨k, bb, hk, hu⟩
    have hkkeys : k ∈ (bfsRun edges source).2.map Prod.fst :=
      (mem_keys_iff_mapGet k _).mpr ⟨bb, hk⟩
    have hksorted : k ∈
        jsSortBy natSortLe ((bfsRun edges source).2.map Prod.fst) :=
      (jsSortBy_perm _ _).mem_iff.mpr hkkeys
    obtain ⟨li, hli, hlik⟩ : ∃ li ∈
        (jsSortBy natSortLe ((bfsRun edges source).2.map Prod.fst)).enum,
        li.2 = k := by
      rw [← List.enum_map_snd
        (jsSortBy natSortLe ((bfsRun edges source).2.map Prod.fst))] at hksorted
      rw [List.mem_map] at hksorted
      obtain ⟨li, hl1, hl2⟩ := hksorted
      exact ⟨li, hl1, hl2⟩
    subst hlik
    have hub : u ∈ ((mapGet li.2 (bfsRun edges source).2).getD []) := by
      rw [hk]; exact hu
    have hue : u ∈
        ((mapGet li.2 (bfsRun edges source).2).getD []).enum.map Prod.snd := by
      rw [List.enum_map_snd]; exact hub
    obtain ⟨ni, hni, hniu⟩ := List.mem_map.mp hue
    rw [List.mem_map]
    refine ⟨(ni.2, 100 + li.1 * 200, 100 + ni.1 * 100), ?_, hniu⟩
    rw [List.mem_flatten]
    refine ⟨_, List.mem_map.mpr ⟨li, hli, rfl⟩, List.mem_map.mpr ⟨ni, hni, rfl⟩⟩

/-- Claim C8: in the layered layout, the nodeToLayer map of the BFS run
assigns u the layer n exactly when n is the length of a shortest
directed walk from the source to u (the BFS depth); every node
reachable from the source via directed edges appears in the positioned
output and every unreachable node is omitted from it; and every node
placed in a layer bucket is placed in the bucket of exactly its
assigned layer. -/
theorem layered_layout_bfs (edges : List GraphEdge) (source : Nat) :
    (∀ u n, mapGet u (bfsRun edges source).1 = some n ↔
      (Walk edges source u n ∧ ∀ m, Walk edges source u m → n ≤ m)) ∧
    (∀ u, u ∈ ((layoutResult edges source).flatten.map (fun p => p.1)) ↔
      ∃ n, Walk edges source u n) ∧
    (∀ k bb, mapGet k (bfsRun edges source).2 = some bb → ∀ u ∈ bb,
      mapGet u (bfsRun edges source).1 = some k) := by
  obtain ⟨hsound0, hrelax0, hsrc00, hbuckets0, hblayer0⟩ :=
    bfsLoop_spec edges (bfsUniv edges source) source
      (mem_bfsUniv_target edges source) _ [(source, 0)] {source}
      [(source, 0)] [] (source_mem_bfsUniv edges source) rfl
      (bfsInv_init edges source)
  have hsound : ∀ u l, mapGet u (bfsRun edges source).1 = some l →
      Walk edges source u l := hsound0
  have hrelax : ∀ u l, mapGet u (bfsRun edges source).1 = some l →
      ∀ e ∈ edges, e.efrom = u →
      ∃ lt, mapGet e.eto (bfsRun edges source).1 = some lt ∧ lt ≤ l + 1 :=
    hrelax0
  have hsrc0 : mapGet source (bfsRun edges source).1 = some 0 := hsrc00
  have hbuckets : ∀ u, (∃ k bb, mapGet k (bfsRun edges source).2 = some bb ∧
      u ∈ bb) ↔ mapGet u (bfsRun edges source).1 ≠ none := hbuckets0
  have hblayer : ∀ k bb, mapGet k (bfsRun edges source).2 = some bb →
      ∀ u ∈ bb, mapGet u (bfsRun edges source).1 = some k := hblayer0
  have hupper : ∀ u m, Walk edges source u m →
      ∃ l, mapGet u (bfsRun edges source).1 = some l ∧ l ≤ m := by
    intro u m hw
    induction hw with
    | refl => exact ⟨0, hsrc0, le_refl 0⟩
    | step hw hstep ihw =>
      obtain ⟨lu, hlu, hlule⟩ := ihw
      obtain ⟨e, he, hef, rfl⟩ := hstep
      obtain ⟨lt, hlt, hltle⟩ := hrelax _ lu hlu e he hef
      exact ⟨lt, hlt, by omega⟩
  refine ⟨?_, ?_, hblayer⟩
  · intro u n
    constructor
    · intro hul
      refine ⟨hsound u n hul, ?_⟩
      intro m hw
      obtain ⟨l, hl, hlle⟩ := hupper u m hw
      rw [hul] at hl
      cases hl
      exact hlle
    · rintro ⟨hw, hmin⟩
      obtain ⟨l, hl, hlle⟩ := hupper u n hw
      have := hmin l (hsound u l hl)
      have hln : l = n := by omega
      rw [← hln]
      exact hl
  · intro u
    rw [layout_ids_iff, hbuckets u]
    constructor
    · intro hne
      rcases hget : mapGet u (bfsRun edges source).1 with _ | l
      · exact absurd hget hne
      · exact ⟨l, hsound u l hget⟩
    · rintro ⟨n, hw⟩
      obtain ⟨l, hl, _⟩ := hupper u n hw
      rw [hl]
      exact fun hx => Option.noConfusion hx

end Meshyview
